import Mathlib

/-!
Verification development for the claude-history command-extraction core.

JavaScript strings are embedded as lists of characters (`Str`), JS `Date`
values as natural-number millisecond timestamps, and the lazy generator
pipeline as pure list-producing functions.  Fallible operations return
`Option` / `Except`.  Each definition mirrors one function of the source
(`jsonl-stream-parser.ts`, `stream-merger.ts`); the success correlator,
whose implementation is exercised only by `command-success.test.ts`, is
modelled from the specification where noted.
-/

namespace ClaudeHistory

/-- JS strings embedded as lists of UTF-16 units (all inputs here are BMP). -/
abbrev Str := List Char

/-- Coerce a Lean string literal into the embedding. -/
def str (s : String) : Str := s.data

/-- Whitespace predicate used by `String.prototype.trim` (restricted to the
space/tab/CR/LF characters that occur in transcript command text). -/
def isWS (c : Char) : Bool := c.isWhitespace

/-- Drop leading whitespace (left half of JS `trim`). -/
def trimLeft (s : Str) : Str := s.dropWhile isWS

/-- Drop trailing whitespace (right half of JS `trim`). -/
def trimRight (s : Str) : Str := (s.reverse.dropWhile isWS).reverse

/-- JS `String.prototype.trim`: strip whitespace from both ends. -/
def trim (s : Str) : Str := trimLeft (trimRight s)

/-- JS `command.split('\n')`: split on newline characters; always returns at
least one (possibly empty) segment, like `''.split('\n') = ['']`. -/
def splitOnNl : Str → List Str
  | [] => [[]]
  | c :: rest =>
    let r := splitOnNl rest
    if c = '\n' then [] :: r
    else
      match r with
      | [] => [[c]]
      | h :: t => (c :: h) :: t

/-- JS `Array.prototype.join(sep)`. -/
def joinSep (sep : Str) : List Str → Str
  | [] => []
  | [l] => l
  | l :: ls => l ++ sep ++ joinSep sep ls

/-- The two-character literal escape sequence backslash-`n` used as the join
separator by `normalizeBashCommand`. -/
def nlEscape : Str := ['\\', 'n']

/-- `JSONLStreamParser.normalizeBashCommand`: split on line boundaries, trim
each line, drop empty lines, rejoin with the literal two-character `\n`. -/
def normalizeBashCommand (command : Str) : Str :=
  joinSep nlEscape
    (((splitOnNl command).map trim).filter (fun line => !line.isEmpty))

/-! ### Data model (`types.ts`) -/

/-- The `source` discriminant of a `ClaudeCommand` (`'bash' | 'user'`). -/
inductive CmdSource
  | bash
  | user
deriving DecidableEq, Repr

/-- `ClaudeCommand` from `types.ts`.  `Date` values are millisecond
timestamps (`Nat`); absent optional fields are `none`. -/
structure Command where
  timestamp : Nat
  command : Str
  source : CmdSource
  description : Option Str := none
  projectPath : Option Str := none
  success : Option Bool := none
deriving DecidableEq, Repr

/-- The `input` payload of a tool-use block. -/
structure BlockInput where
  command : Option Str := none
  description : Option Str := none
deriving DecidableEq, Repr

/-- One content block of a conversation entry (tool-use, text or
tool-result); unknown extra fields are ignored by the code and omitted. -/
structure ContentBlock where
  type : Str
  name : Option Str := none
  id : Option Str := none
  input : Option BlockInput := none
  text : Option Str := none
  tool_use_id : Option Str := none
  is_error : Option Bool := none
deriving DecidableEq, Repr

/-- A user entry's `message.content`: either an unstructured string or a
block sequence (`string | Array<...>` in `types.ts`). -/
inductive UserContent
  | str (s : Str)
  | blocks (bs : List ContentBlock)
deriving DecidableEq, Repr

/-- `UserConversationEntry` (the `message.role` field is redundant with the
discriminant and omitted). -/
structure UserEntry where
  content : UserContent
  timestamp : Option Nat := none
  cwd : Option Str := none
deriving DecidableEq, Repr

/-- `AssistantConversationEntry`: assistant content is always a block
sequence. -/
structure AssistantEntry where
  content : List ContentBlock
  timestamp : Option Nat := none
  cwd : Option Str := none
deriving DecidableEq, Repr

/-- `ConversationEntry` with its `type` discriminant. -/
inductive ConversationEntry
  | user (u : UserEntry)
  | assistant (a : AssistantEntry)
deriving DecidableEq, Repr

/-! ### Command extraction (`jsonl-stream-parser.ts`) -/

/-- The predicate of `findBashToolBlock`:
`block.type === 'tool_use' && block.name === 'Bash'`. -/
def isBashToolUse (b : ContentBlock) : Bool :=
  b.type == str "tool_use" && b.name == some (str "Bash")

/-- `JSONLStreamParser.findBashToolBlock`: first Bash tool-use block. -/
def findBashToolBlock (content : List ContentBlock) : Option ContentBlock :=
  content.find? isBashToolUse

/-- `JSONLStreamParser.createClaudeCommand`.  `now` models the ambient
clock (`new Date()`) used when the entry has no timestamp.  A falsy
(`undefined` or empty) command yields `null`; an empty description is
normalized away by `|| undefined`. -/
def createClaudeCommand (now : Nat) (input : Option BlockInput)
    (timestamp : Option Nat) (cwd : Option Str) (source : CmdSource) :
    Option Command :=
  match input with
  | none => none
  | some inp =>
    match inp.command with
    | none => none
    | some c =>
      if c.isEmpty then none
      else
        some
          { timestamp := timestamp.getD now
            command := normalizeBashCommand c
            source := source
            description :=
              match inp.description with
              | some d => if d.isEmpty then none else some d
              | none => none
            projectPath := cwd }

/-- `JSONLStreamParser.extractBashCommand`: `null` unless the entry is an
assistant entry with a Bash tool-use block carrying a usable command. -/
def extractBashCommand (now : Nat) (e : ConversationEntry) : Option Command :=
  match e with
  | .user _ => none
  | .assistant a =>
    match findBashToolBlock a.content with
    | none => none
    | some b => createClaudeCommand now b.input a.timestamp a.cwd .bash

/-- Does `s` begin with `p`?  (JS `String.prototype.startsWith`.) -/
def beginsWith : Str → Str → Bool
  | _, [] => true
  | [], _ :: _ => false
  | c :: s, p :: ps => c == p && beginsWith s ps

/-- Does `s` end with `p`?  (JS `String.prototype.endsWith`.) -/
def endsWith (s p : Str) : Bool := beginsWith s.reverse p.reverse

/-- The two-character bang marker `"! "`. -/
def bangMarker : Str := ['!', ' ']

/-- The block loop of `JSONLStreamParser.findUserCommand`: the first block
with `type === 'text'` and truthy `text` whose trimmed text starts with
`"! "` yields the remainder after the marker, trimmed; otherwise the scan
continues with the next block. -/
def findUserCommandInBlocks : List ContentBlock → Option Str
  | [] => none
  | b :: rest =>
    if b.type == str "text" then
      match b.text with
      | some t =>
        if !t.isEmpty then
          if beginsWith (trim t) bangMarker then some (trim ((trim t).drop 2))
          else findUserCommandInBlocks rest
        else findUserCommandInBlocks rest
      | none => findUserCommandInBlocks rest
    else findUserCommandInBlocks rest

/-- `JSONLStreamParser.findUserCommand`.  When the content is an
unstructured string, the JS `for (const block of content)` loop iterates
the characters of the string; a character has no `type` field, so the
text-block test never fires and the result is `null`. -/
def findUserCommand : UserContent → Option Str
  | .str _ => none
  | .blocks bs => findUserCommandInBlocks bs

/-- JS truthiness of `entry.message?.content`: an empty string is falsy,
any array (even empty) is truthy. -/
def contentTruthy : UserContent → Bool
  | .str s => !s.isEmpty
  | .blocks _ => true

/-- `JSONLStreamParser.extractUserCommand`: `null` unless the entry is a
user entry whose content scan finds a bang command. -/
def extractUserCommand (now : Nat) (e : ConversationEntry) : Option Command :=
  match e with
  | .assistant _ => none
  | .user u =>
    if contentTruthy u.content then
      match findUserCommand u.content with
      | none => none
      | some command =>
        createClaudeCommand now (some { command := some command }) u.timestamp
          u.cwd .user
    else none

/-- The per-line emissions of `createFileStream`: the bash extraction is
yielded first, then the user extraction. -/
def commandsOfEntry (now : Nat) (e : ConversationEntry) : List Command :=
  (extractBashCommand now e).toList ++ (extractUserCommand now e).toList

/-- `JSONLStreamParser.createFileStream` over the decoded entries of one
file (whitespace-only and non-parseable lines decode to no entry and are
skipped with a diagnostic, so they do not appear in `entries`). -/
def createFileStream (now : Nat) (entries : List ConversationEntry) :
    List Command :=
  entries.flatMap (commandsOfEntry now)

/-! ### Project stream (`createProjectStream`) -/

/-- One transcript file of a project directory: its name, its
last-modification time and its decoded entries. -/
structure TranscriptFile where
  name : Str
  mtime : Nat
  entries : List ConversationEntry
deriving DecidableEq, Repr

/-- Insert a file into a list sorted ascending by `mtime`, after any file
with an equal `mtime` (stable, like `Array.prototype.sort` with the
`a.mtime - b.mtime` comparator). -/
def insertByMtime (f : TranscriptFile) :
    List TranscriptFile → List TranscriptFile
  | [] => [f]
  | g :: gs => if f.mtime < g.mtime then f :: g :: gs else g :: insertByMtime f gs

/-- Stable sort of the project's files ascending by modification time. -/
def sortByMtime : List TranscriptFile → List TranscriptFile
  | [] => []
  | f :: fs => insertByMtime f (sortByMtime fs)

/-- `JSONLStreamParser.createProjectStream`: keep the `.jsonl` files, sort
ascending by modification time, concatenate their file streams.  A
directory that cannot be listed (`Except.error`) yields the empty sequence
plus one diagnostic (`console.error`), never an exception.  The second
component counts diagnostics. -/
def createProjectStream (now : Nat)
    (listing : Except Unit (List TranscriptFile)) : List Command × Nat :=
  match listing with
  | .error _ => ([], 1)
  | .ok files =>
    ((sortByMtime (files.filter (fun f => endsWith f.name (str ".jsonl")))).flatMap
      (fun f => createFileStream now f.entries), 0)

/-! ### Success correlator

Modelled from the spec: the pending-command correlator
(`JSONLStreamParser.processEntry` / `flushPendingCommands`, exercised by
`command-success.test.ts`) is absent from the shipped parser source; its
state machine is reconstructed from spec §4.3, delegating candidate
extraction to the source definitions above. -/

/-- Modelled from the spec: a pending command — invocation id, the
partially-built Command (success still unknown), and a creation order
number for deterministic flush ordering. -/
structure PendingCommand where
  id : Str
  cmd : Command
  order : Nat
deriving DecidableEq, Repr

/-- Modelled from the spec: per-file correlator state — the
insertion-ordered pending map and the creation-order counter. -/
structure CorrelatorState where
  pending : List PendingCommand
  counter : Nat
deriving DecidableEq, Repr

/-- Fresh correlator state at the start of a file stream. -/
def initialCorrelatorState : CorrelatorState := ⟨[], 0⟩

/-- The assistant candidate together with the invocation id of the tool-use
block it was built from (spec §4.2: "its invocation id travels with the
candidate for correlation"). -/
def extractBashCandidate (now : Nat) (e : ConversationEntry) :
    Option (Option Str × Command) :=
  match e with
  | .user _ => none
  | .assistant a =>
    match findBashToolBlock a.content with
    | none => none
    | some b =>
      (createClaudeCommand now b.input a.timestamp a.cwd .bash).map
        (fun c => (b.id, c))

/-- The block sequence a user entry exposes to the result scan (string
content has no blocks). -/
def userContentBlocks : UserContent → List ContentBlock
  | .str _ => []
  | .blocks bs => bs

/-- Modelled from the spec: handling of one result block (§4.3).  A block
that is not a `tool_result`, carries no id, or references an unknown /
already-resolved id is silently ignored; otherwise the pending command is
resolved to `success = not error-flag` (an absent error flag counts as
success) and emitted immediately. -/
def processResultBlock (st : CorrelatorState) (b : ContentBlock) :
    CorrelatorState × List Command :=
  if b.type == str "tool_result" then
    match b.tool_use_id with
    | none => (st, [])
    | some x =>
      match st.pending.find? (fun p => p.id == x) with
      | none => (st, [])
      | some p =>
        ({ st with pending := st.pending.eraseP (fun q => q.id == x) },
          [{ p.cmd with success := some (!(b.is_error.getD false)) }])
  else (st, [])

/-- Result blocks of one user entry are processed in block order. -/
def processResultBlocks (st : CorrelatorState) :
    List ContentBlock → CorrelatorState × List Command
  | [] => (st, [])
  | b :: rest =>
    let r1 := processResultBlock st b
    let r2 := processResultBlocks r1.1 rest
    (r2.1, r1.2 ++ r2.2)

/-- Modelled from the spec: `JSONLStreamParser.processEntry` (§4.3).  An
assistant candidate with an invocation id becomes a new PendingCommand and
nothing is emitted yet; a candidate without an id has no result channel and
is emitted at once with success = true; a user entry is scanned for result
blocks (resolving and emitting pending commands) and, independently, for a
bang command, which resolves to success = true immediately. -/
def processEntry (now : Nat) (st : CorrelatorState) (e : ConversationEntry) :
    CorrelatorState × List Command :=
  match e with
  | .assistant _ =>
    match extractBashCandidate now e with
    | none => (st, [])
    | some (some x, cmd) =>
      ({ pending := st.pending ++ [⟨x, cmd, st.counter⟩],
         counter := st.counter + 1 }, [])
    | some (none, cmd) => (st, [{ cmd with success := some true }])
  | .user u =>
    let r := processResultBlocks st (userContentBlocks u.content)
    let out2 :=
      match extractUserCommand now e with
      | some c => [{ c with success := some true }]
      | none => []
    (r.1, r.2 ++ out2)

/-- Modelled from the spec: `JSONLStreamParser.flushPendingCommands` —
every command still pending at end-of-stream is emitted with
success = true (orphaned-command default), in creation order. -/
def flushPendingCommands (st : CorrelatorState) : List Command :=
  st.pending.map (fun p => { p.cmd with success := some true })

/-- Thread the correlator through a list of entries, collecting emissions. -/
def processEntries (now : Nat) (st : CorrelatorState) :
    List ConversationEntry → CorrelatorState × List Command
  | [] => (st, [])
  | e :: rest =>
    let r1 := processEntry now st e
    let r2 := processEntries now r1.1 rest
    (r2.1, r1.2 ++ r2.2)

/-- The correlator state left after a whole file. -/
def finalCorrelatorState (now : Nat) (entries : List ConversationEntry) :
    CorrelatorState :=
  (processEntries now initialCorrelatorState entries).1

/-- The full spec-modelled File Stream: emissions during processing
followed by the end-of-stream flush. -/
def runFileStream (now : Nat) (entries : List ConversationEntry) :
    List Command :=
  (processEntries now initialCorrelatorState entries).2 ++
    flushPendingCommands (finalCorrelatorState now entries)

/-- Number of extractable candidates of one entry (assistant tool
invocation with usable command text, or user bang-command). -/
def candidateCount (now : Nat) (e : ConversationEntry) : Nat :=
  (commandsOfEntry now e).length

/-- Does this entry create a PendingCommand with invocation id `x`? -/
def insertsInvocationId (now : Nat) (x : Str) (e : ConversationEntry) : Bool :=
  match extractBashCandidate now e with
  | some (some y, _) => y == x
  | _ => false

/-- Does this entry carry a result block referencing invocation id `x`? -/
def referencesResult (x : Str) (e : ConversationEntry) : Bool :=
  match e with
  | .user u =>
    (userContentBlocks u.content).any
      (fun b => b.type == str "tool_result" && b.tool_use_id == some x)
  | .assistant _ => false

/-- A result block for invocation id `x` with error flag `e`. -/
def mkToolResultBlock (x : Str) (e : Bool) : ContentBlock :=
  { type := str "tool_result", tool_use_id := some x, is_error := some e }

/-! ### Chronological merger (`stream-merger.ts`) -/

/-- One pull from an async generator: an element, or the generator threw. -/
abbrev PullResult := Except Unit Command

/-- A source stream as the sequence of its pulls; the end of the list is
`done`. -/
abbrev SourceStream := List PullResult

deriving instance DecidableEq for Except

/-- `StreamWithBuffer` from `stream-merger.ts`: the remaining stream, one
buffered lookahead command, and the exhausted flag. -/
structure StreamWithBuffer where
  stream : SourceStream
  buffer : Option Command := none
  exhausted : Bool := false
deriving DecidableEq, Repr

/-- One step of `StreamMerger.initializeBuffers`: pull the first element;
`done` or a thrown error marks the cursor exhausted (the error adding one
diagnostic). -/
def initializeBuffer (s : SourceStream) : StreamWithBuffer × Nat :=
  match s with
  | [] => ({ stream := [], buffer := none, exhausted := true }, 0)
  | .ok v :: rest => ({ stream := rest, buffer := some v, exhausted := false }, 0)
  | .error _ :: rest => ({ stream := rest, buffer := none, exhausted := true }, 1)

/-- `StreamMerger.initializeBuffers` over all cursors, counting
diagnostics. -/
def initializeBuffers (ss : List SourceStream) : List StreamWithBuffer × Nat :=
  ((ss.map initializeBuffer).map Prod.fst,
    ((ss.map initializeBuffer).map Prod.snd).sum)

/-- The scan loop of `StreamMerger.findEarliestCommand`: left-to-right over
the cursors, keeping the first buffered command with the strictly smallest
timestamp. -/
def findEarliestAux :
    List StreamWithBuffer → Nat → Option (Nat × Command) → Option (Nat × Command)
  | [], _, best => best
  | sb :: rest, i, best =>
    let best' :=
      if sb.exhausted then best
      else
        match sb.buffer with
        | none => best
        | some b =>
          match best with
          | none => some (i, b)
          | some (j, bb) =>
            if b.timestamp < bb.timestamp then some (i, b) else some (j, bb)
    findEarliestAux rest (i + 1) best'

/-- `StreamMerger.findEarliestCommand` (returning `none` for the code's
`-1` sentinel). -/
def findEarliestCommand (sbs : List StreamWithBuffer) : Option (Nat × Command) :=
  findEarliestAux sbs 0 none

/-- `StreamMerger.refillBuffer`: pull the next element into the buffer;
`done` or a thrown error (one diagnostic) exhausts the cursor and clears
the buffer.  (After a JS generator throws it is dead; the exhausted flag
ensures the model never pulls past an error either.) -/
def refillBuffer (sb : StreamWithBuffer) : StreamWithBuffer × Nat :=
  match sb.stream with
  | [] => ({ stream := [], buffer := none, exhausted := true }, 0)
  | .ok v :: rest => ({ sb with stream := rest, buffer := some v }, 0)
  | .error _ :: rest => ({ stream := rest, buffer := none, exhausted := true }, 1)

/-- Termination measure: one lookahead slot plus the un-pulled stream. -/
def bufferSize (sb : StreamWithBuffer) : Nat :=
  (if sb.buffer.isSome then 1 else 0) + sb.stream.length

/-- Total measure over all cursors. -/
def buffersSize (sbs : List StreamWithBuffer) : Nat :=
  (sbs.map bufferSize).sum

/-- `StreamMerger.mergeStreamsWithBuffering`: repeatedly emit the earliest
buffered command and refill its cursor, until no cursor holds a buffered
command.  The two `([], 0)` fallback arms are unreachable — the scan
returns an in-range index whose cursor holds a buffered command (they model
the code's `if (!command) continue` guard). -/
def mergeStreamsWithBuffering (sbs : List StreamWithBuffer) :
    List Command × Nat :=
  match findEarliestCommand sbs with
  | none => ([], 0)
  | some (i, _) =>
    match h2 : sbs[i]? with
    | none => ([], 0)
    | some sb =>
      match h3 : sb.buffer with
      | none => ([], 0)
      | some cmd =>
        let r := refillBuffer sb
        let rest := mergeStreamsWithBuffering (sbs.set i r.1)
        (cmd :: rest.1, r.2 + rest.2)
termination_by buffersSize sbs
decreasing_by
  have key : ∀ (l : List StreamWithBuffer) (i : Nat) (sb a : StreamWithBuffer),
      l[i]? = some sb → bufferSize a < bufferSize sb →
      buffersSize (l.set i a) < buffersSize l := by
    intro l
    induction l with
    | nil => intro i sb a h _; simp at h
    | cons hd tl ih =>
      intro i sb a h hlt
      cases i with
      | zero =>
        simp only [List.getElem?_cons_zero, Option.some.injEq] at h
        subst h
        simp only [List.set, buffersSize, List.map_cons, List.sum_cons]
        omega
      | succ n =>
        simp only [List.getElem?_cons_succ] at h
        have := ih n sb a h hlt
        simp only [List.set, buffersSize, List.map_cons, List.sum_cons] at *
        omega
  apply key _ _ _ _ h2
  simp only [refillBuffer]
  cases hs : sb.stream with
  | nil => simp [bufferSize, h3, hs]
  | cons p rest =>
    cases p with
    | ok v => simp [bufferSize, h3, hs]
    | error u =>
      simp [bufferSize, h3, hs]
      omega

/-- The single-stream passthrough arm of `chronologicalMerge`
(`yield* streams[0]`): elements stream through unchanged; an error in the
source would propagate to the caller, so the sequence produced up to that
point is the prefix before the first error. -/
def streamOkValues (s : SourceStream) : List Command :=
  (s.takeWhile (fun r => r.isOk)).filterMap (fun r => r.toOption)

/-- `StreamMerger.chronologicalMerge`: zero inputs yield nothing, one input
is passed through, otherwise initialize one cursor per stream and run the
buffered merge.  The second component counts diagnostics. -/
def chronologicalMerge (streams : List SourceStream) : List Command × Nat :=
  match streams with
  | [] => ([], 0)
  | [s] => (streamOkValues s, 0)
  | _ =>
    let r0 := initializeBuffers streams
    let r1 := mergeStreamsWithBuffering r0.1
    (r1.1, r0.2 + r1.2)

/-! ### Proof-support definitions for the merger -/

/-- The ok-elements of a pull sequence. -/
def okValues (s : SourceStream) : List Command :=
  s.filterMap (fun r => r.toOption)

/-- The commands a cursor still owes the merge: its lookahead buffer plus
the ok-values of its un-pulled stream. -/
def cursorContents (sb : StreamWithBuffer) : List Command :=
  sb.buffer.toList ++ okValues sb.stream

/-- Number of error pulls in a stream. -/
def errorCount (s : SourceStream) : Nat :=
  s.countP (fun r => !r.isOk)

/-- A pull sequence whose only error, if any, is the final pull (a JS
generator dies when it throws, so nothing follows an error). -/
def errorLastOnly : SourceStream → Bool
  | [] => true
  | .ok _ :: rest => errorLastOnly rest
  | [.error _] => true
  | .error _ :: _ :: _ => false

/-- Invariant of a merge cursor: an exhausted cursor holds no buffer, an
empty buffer means the stream was fully pulled, and errors are final. -/
def CursorInv (sb : StreamWithBuffer) : Prop :=
  (sb.exhausted = true → sb.buffer = none) ∧
  (sb.buffer = none → sb.stream = []) ∧
  errorLastOnly sb.stream = true

/-- A concrete Bash tool-use block (used by witnesses). -/
def bashTrueBlock : ContentBlock :=
  { type := str "tool_use", name := some (str "Bash"),
    input := some { command := some (str "true") } }

/-- A second concrete Bash tool-use block (used by witnesses). -/
def bashFalseBlock : ContentBlock :=
  { type := str "tool_use", name := some (str "Bash"),
    input := some { command := some (str "false") } }

/-- A concrete transcript file (used by witnesses): earlier modification
time, entries without timestamps. -/
def fileA : TranscriptFile :=
  ⟨str "a.jsonl", 5, [.assistant ⟨[bashTrueBlock], none, none⟩]⟩

/-- A concrete transcript file (used by witnesses): later modification
time, entries without timestamps. -/
def fileB : TranscriptFile :=
  ⟨str "b.jsonl", 9, [.assistant ⟨[bashFalseBlock], none, none⟩]⟩

/-- A Bash tool-use block carrying invocation id `"xxx"` (witnesses). -/
def bashBlockWithId : ContentBlock :=
  { type := str "tool_use", name := some (str "Bash"),
    id := some (str "xxx"), input := some { command := some (str "true") } }

/-- A Bash tool-use block carrying invocation id `"yyy"` (witnesses). -/
def bashBlockWithId2 : ContentBlock :=
  { type := str "tool_use", name := some (str "Bash"),
    id := some (str "yyy"), input := some { command := some (str "echo hi") } }

/-- The command built from `bashBlockWithId` at clock 0 (witnesses). -/
def cmdTrue0 : Command := ⟨0, str "true", .bash, none, none, none⟩

/-- A command with a given timestamp (used by witnesses). -/
def cmdAt (t : Nat) : Command := ⟨t, str "c", .bash, none, none, none⟩

/-- Timestamp order on commands (JS `Date` comparison). -/
def cmdLE (a b : Command) : Prop := a.timestamp ≤ b.timestamp

instance (a b : Command) : Decidable (cmdLE a b) :=
  Nat.decLe a.timestamp b.timestamp

/-! ### Lemmas about the string operations -/

theorem splitOnNl_ne_nil (s : Str) : splitOnNl s ≠ [] := by
  cases s with
  | nil => simp [splitOnNl]
  | cons c rest =>
    simp only [splitOnNl]
    split
    · simp
    · match h : splitOnNl rest with
      | [] => simp
      | h' :: t => simp

theorem splitOnNl_of_not_mem (s : Str) (h : '\n' ∉ s) : splitOnNl s = [s] := by
  induction s with
  | nil => rfl
  | cons c rest ih =>
    simp only [List.mem_cons, not_or] at h
    have hc : ¬ c = '\n' := fun hc => h.1 hc.symm
    simp only [splitOnNl, if_neg hc, ih h.2]

theorem not_mem_of_mem_splitOnNl (s : Str) (l : Str) (hl : l ∈ splitOnNl s) :
    '\n' ∉ l := by
  induction s generalizing l with
  | nil =>
    simp only [splitOnNl, List.mem_singleton] at hl
    subst hl; simp
  | cons c rest ih =>
    simp only [splitOnNl] at hl
    by_cases hc : c = '\n'
    · rw [if_pos hc] at hl
      rcases List.mem_cons.mp hl with h | h
      · subst h; simp
      · exact ih l h
    · rw [if_neg hc] at hl
      match hr : splitOnNl rest with
      | [] => exact absurd hr (splitOnNl_ne_nil rest)
      | h' :: t =>
        rw [hr] at hl
        rcases List.mem_cons.mp hl with h | h
        · subst h
          intro hm
          rcases List.mem_cons.mp hm with h | h
          · exact hc h.symm
          · exact ih h' (hr ▸ List.mem_cons_self h' t) h
        · exact ih l (hr ▸ List.mem_cons_of_mem h' h)

theorem mem_of_mem_dropWhile {p : Char → Bool} {s : Str} {c : Char}
    (h : c ∈ s.dropWhile p) : c ∈ s := (List.dropWhile_sublist p).mem h

theorem mem_of_mem_trim {s : Str} {c : Char} (h : c ∈ trim s) : c ∈ s := by
  have h1 : c ∈ trimRight s := mem_of_mem_dropWhile h
  have h2 : c ∈ s.reverse.dropWhile isWS := List.mem_reverse.mp h1
  exact List.mem_reverse.mp (mem_of_mem_dropWhile h2)

theorem dropWhile_head_false {p : Char → Bool} :
    ∀ {s : Str} {c : Char} {t : Str}, s.dropWhile p = c :: t → p c = false := by
  intro s
  induction s with
  | nil => intro c t h; simp [List.dropWhile] at h
  | cons a rest ih =>
    intro c t h
    rw [List.dropWhile_cons] at h
    split at h
    · exact ih h
    · cases h
      simp_all

theorem dropWhile_eq_self_of_head {p : Char → Bool} {s : Str}
    (h : ∀ c t, s = c :: t → p c = false) : s.dropWhile p = s := by
  cases s with
  | nil => rfl
  | cons c t => rw [List.dropWhile_cons, h c t rfl]; simp

theorem trim_head_false {s : Str} {c : Char} {t : Str}
    (h : trim s = c :: t) : isWS c = false :=
  dropWhile_head_false h

theorem trim_getLast_false {s : Str} {c : Char}
    (h : (trim s).getLast? = some c) : isWS c = false := by
  unfold trim trimLeft at h
  have hsub : (trimRight s).dropWhile isWS <:+ trimRight s :=
    List.dropWhile_suffix isWS
  obtain ⟨t, ht⟩ := hsub
  have hne : (trimRight s).dropWhile isWS ≠ [] := by
    intro hnil
    rw [hnil] at h
    simp [List.getLast?] at h
  have h2 : (trimRight s).getLast? = some c := by
    rw [← ht]
    exact (List.getLast?_append_of_ne_nil t hne).trans h
  unfold trimRight at h2
  rw [List.getLast?_reverse] at h2
  cases hd : s.reverse.dropWhile isWS with
  | nil => rw [hd] at h2; simp at h2
  | cons a t' =>
    rw [hd] at h2
    simp only [List.head?_cons, Option.some.injEq] at h2
    subst h2
    exact dropWhile_head_false hd

theorem trim_eq_self {s : Str}
    (hh : ∀ c t, s = c :: t → isWS c = false)
    (hl : ∀ c, s.getLast? = some c → isWS c = false) : trim s = s := by
  have hr : trimRight s = s := by
    unfold trimRight
    rw [dropWhile_eq_self_of_head, List.reverse_reverse]
    intro c t h
    apply hl
    rw [← List.reverse_reverse s, List.getLast?_reverse, h]
    rfl
  unfold trim
  rw [hr]
  exact dropWhile_eq_self_of_head hh

theorem trim_nil : trim [] = [] := rfl

/-- `normalizeBashCommand` on single-line input (no newline character)
returns the trimmed input unchanged. -/
theorem normalizeBashCommand_no_nl (s : Str) (h : '\n' ∉ s) :
    normalizeBashCommand s = trim s := by
  unfold normalizeBashCommand
  rw [splitOnNl_of_not_mem s h]
  simp only [List.map_cons, List.map_nil, List.filter]
  cases ht : trim s with
  | nil => simp [List.isEmpty, joinSep]
  | cons c t => simp [List.isEmpty, joinSep]

theorem not_mem_joinSep {c : Char} {sep : Str} {ls : List Str}
    (hsep : c ∉ sep) (hls : ∀ l ∈ ls, c ∉ l) : c ∉ joinSep sep ls := by
  induction ls with
  | nil => simp [joinSep]
  | cons l ls' ih =>
    cases ls' with
    | nil => simpa [joinSep] using hls l (by simp)
    | cons l' ls'' =>
      simp only [joinSep, List.append_assoc, List.mem_append, not_or]
      refine ⟨hls l (by simp), hsep, ih ?_⟩
      intro m hm
      exact hls m (List.mem_cons_of_mem l hm)

theorem joinSep_ne_nil {sep : Str} {ls : List Str} (h : ls ≠ [])
    (hall : ∀ l ∈ ls, l ≠ []) : joinSep sep ls ≠ [] := by
  cases ls with
  | nil => exact absurd rfl h
  | cons l ls' =>
    have hl := hall l (by simp)
    cases ls' with
    | nil => simpa [joinSep] using hl
    | cons l' ls'' =>
      simp only [joinSep]
      intro hc
      apply hl
      have hlen := congrArg List.length hc
      simp only [List.length_append, List.length_nil] at hlen
      exact List.length_eq_zero.mp (by omega)

theorem joinSep_cons_head {sep l : Str} {ls : List Str} {c : Char} {t : Str}
    (h : l = c :: t) : ∃ t', joinSep sep (l :: ls) = c :: t' := by
  cases ls with
  | nil => exact ⟨t, by simp [joinSep, h]⟩
  | cons l' ls'' =>
    exact ⟨t ++ sep ++ joinSep sep (l' :: ls''), by simp [joinSep, h]⟩

theorem joinSep_getLast {sep : Str} {ls : List Str} (hall : ∀ l ∈ ls, l ≠ []) :
    ∀ c, (joinSep sep ls).getLast? = some c → ∃ l ∈ ls, l.getLast? = some c := by
  induction ls with
  | nil => intro c hc; simp [joinSep] at hc
  | cons l ls' ih =>
    cases ls' with
    | nil =>
      intro c hc
      exact ⟨l, by simp, by simpa [joinSep] using hc⟩
    | cons l' ls'' =>
      intro c hc
      have hall' : ∀ x ∈ l' :: ls'', x ≠ [] :=
        fun x hx => hall x (List.mem_cons_of_mem l hx)
      have hjoin : joinSep sep (l' :: ls'') ≠ [] :=
        joinSep_ne_nil (by simp) hall'
      simp only [joinSep] at hc
      rw [List.getLast?_append_of_ne_nil (l ++ sep) hjoin] at hc
      obtain ⟨m, hm, hm2⟩ := ih hall' c hc
      exact ⟨m, List.mem_cons_of_mem l hm, hm2⟩

/-- C9 (implicit): `normalizeBashCommand` is idempotent — the normalized
form contains no newline character, is trimmed at both ends, and so
normalizes to itself. -/
theorem normalizeBashCommand_idem (s : Str) :
    normalizeBashCommand (normalizeBashCommand s) = normalizeBashCommand s := by
  have hsep : '\n' ∉ nlEscape := by decide
  have f13 : ∀ l ∈ ((splitOnNl s).map trim).filter (fun line => !line.isEmpty),
      l ≠ [] ∧ '\n' ∉ l ∧ ∃ q, l = trim q := by
    intro l hl
    obtain ⟨hmem, hne⟩ := List.mem_filter.mp hl
    obtain ⟨q, hq, hlq⟩ := List.mem_map.mp hmem
    refine ⟨?_, ?_, q, hlq.symm⟩
    · intro hnil
      rw [hnil] at hne
      simp at hne
    · intro hmem2
      rw [← hlq] at hmem2
      exact not_mem_of_mem_splitOnNl s q hq (mem_of_mem_trim hmem2)
  have hns : normalizeBashCommand s =
      joinSep nlEscape (((splitOnNl s).map trim).filter
        (fun line => !line.isEmpty)) := rfl
  have g1 : '\n' ∉ normalizeBashCommand s := by
    rw [hns]
    exact not_mem_joinSep hsep (fun l hl => (f13 l hl).2.1)
  have g2 : trim (normalizeBashCommand s) = normalizeBashCommand s := by
    apply trim_eq_self
    · intro c t hct
      rw [hns] at hct
      cases hps0 : ((splitOnNl s).map trim).filter (fun line => !line.isEmpty) with
      | nil => rw [hps0] at hct; simp [joinSep] at hct
      | cons l rest =>
        rw [hps0] at hct
        obtain ⟨hlne, _, q, hlq⟩ := f13 l (by rw [hps0]; exact List.mem_cons_self l rest)
        cases hl0 : l with
        | nil => exact absurd hl0 hlne
        | cons c0 t0 =>
          obtain ⟨t', ht'⟩ := @joinSep_cons_head nlEscape l rest c0 t0 hl0
          rw [ht'] at hct
          injection hct with h1 _
          subst h1
          exact trim_head_false (s := q) (by rw [← hlq, hl0])
    · intro c hc
      rw [hns] at hc
      obtain ⟨l, hl, hlc⟩ := joinSep_getLast (fun x hx => (f13 x hx).1) c hc
      obtain ⟨_, _, q, hlq⟩ := f13 l hl
      exact trim_getLast_false (s := q) (by rw [← hlq]; exact hlc)
  have expand : normalizeBashCommand (normalizeBashCommand s) =
      joinSep nlEscape (((splitOnNl (normalizeBashCommand s)).map trim).filter
        (fun line => !line.isEmpty)) := rfl
  rw [expand, splitOnNl_of_not_mem _ g1]
  simp only [List.map_cons, List.map_nil, g2]
  cases hn : normalizeBashCommand s with
  | nil => simp [List.filter, joinSep]
  | cons c t => simp [List.filter, joinSep]

/-- C7: command text normalization splits on line boundaries, trims each
line, drops empty lines and rejoins with the literal two-character
backslash-n: `"a\n  b\n\nc"` (real newlines) becomes `"a\nb\nc"` (literal
separators), and every single-line input is returned unchanged after
trimming. -/
theorem normalizeBashCommand_spec :
    normalizeBashCommand (str "a\n  b\n\nc") = str "a\\nb\\nc" ∧
    ∀ s : Str, '\n' ∉ s → normalizeBashCommand s = trim s := by
  constructor
  · decide
  · exact normalizeBashCommand_no_nl

/-- Witness for C7 at a concrete single-line input. -/
theorem normalizeBashCommand_spec_witness :
    '\n' ∉ str " npm install " ∧
    normalizeBashCommand (str " npm install ") = trim (str " npm install ") :=
  ⟨by decide, normalizeBashCommand_spec.2 (str " npm install ") (by decide)⟩

/-- C6 counterexample: a user entry whose content is the unstructured text
`"! ls"` — a line beginning with the two-character bang marker — yields no
command, while a user entry whose content is a block sequence holding a
text block `"! git status"` yields one; both directions of the claim are
inverted by the code. -/
theorem findUserCommand_claim_false :
    extractUserCommand 0 (.user { content := .str (str "! ls") }) = none ∧
    extractUserCommand 0 (.user { content :=
        (.blocks [{ type := str "text", text := some (str "! git status") }]) }) =
      some { timestamp := 0, command := str "git status", source := .user } := by
  constructor
  · decide
  · decide

/-- C6 amended: bang-command extraction applies to block-sequence content
and never to unstructured text — a user entry with string content yields
nothing (the block loop iterates characters, which carry no `type` field),
while a user entry whose content is a block sequence led by a text block
whose trimmed text begins with `"! "` yields a user-issued command whose
text is the remainder of the trimmed text after the marker, trimmed (and
normalized), provided that remainder is nonempty. -/
theorem findUserCommand_amended :
    (∀ (now : Nat) (ts : Option Nat) (w : Option Str) (s : Str),
      extractUserCommand now (.user ⟨.str s, ts, w⟩) = none) ∧
    (∀ (now : Nat) (ts : Option Nat) (w : Option Str) (t : Str)
        (rest : List ContentBlock),
      beginsWith (trim t) bangMarker = true →
      trim ((trim t).drop 2) ≠ [] →
      extractUserCommand now
        (.user ⟨.blocks ({ type := str "text", text := some t } :: rest), ts, w⟩) =
        some ⟨ts.getD now, normalizeBashCommand (trim ((trim t).drop 2)),
          .user, none, w, none⟩) := by
  constructor
  · intro now ts w s
    cases s with
    | nil => rfl
    | cons c s' => rfl
  · intro now ts w t rest h1 h2
    have ht : t ≠ [] := by
      intro h0
      rw [h0] at h1
      simp [trim_nil, beginsWith, bangMarker] at h1
    have ht' : t.isEmpty = false := by
      cases t with
      | nil => exact absurd rfl ht
      | cons c t0 => rfl
    have hc' : (trim ((trim t).drop 2)).isEmpty = false := by
      cases hcc : trim ((trim t).drop 2) with
      | nil => exact absurd hcc h2
      | cons c t0 => rfl
    simp [extractUserCommand, contentTruthy, findUserCommand,
      findUserCommandInBlocks, createClaudeCommand, ht', hc', h1]

/-- Witness for the amended C6 at a concrete bang command. -/
theorem findUserCommand_amended_witness :
    beginsWith (trim (str "  ! git status ")) bangMarker = true ∧
    trim ((trim (str "  ! git status ")).drop 2) ≠ [] ∧
    extractUserCommand 7
      (.user ⟨.blocks [{ type := str "text", text := some (str "  ! git status ") }],
        some 3, some (str "/p")⟩) =
      some ⟨3, normalizeBashCommand (trim ((trim (str "  ! git status ")).drop 2)),
        .user, none, some (str "/p"), none⟩ :=
  ⟨by decide, by decide,
    findUserCommand_amended.2 7 (some 3) (some (str "/p")) (str "  ! git status ")
      [] (by decide) (by decide)⟩

/-- C10 (implicit): a decoded entry yields at most one command — the bash
extraction rejects non-assistant entries, the user extraction rejects
non-user entries (so the two can never both fire), and an assistant entry
with several Bash tool-use blocks is decided entirely by the first such
block. -/
theorem commandsOfEntry_at_most_one :
    (∀ (now : Nat) (e : ConversationEntry), (commandsOfEntry now e).length ≤ 1) ∧
    (∀ (now : Nat) (u : UserEntry), extractBashCommand now (.user u) = none) ∧
    (∀ (now : Nat) (a : AssistantEntry),
      extractUserCommand now (.assistant a) = none) ∧
    (∀ (now : Nat) (b : ContentBlock) (rest : List ContentBlock)
        (ts : Option Nat) (w : Option Str),
      isBashToolUse b = true →
      extractBashCommand now (.assistant ⟨b :: rest, ts, w⟩) =
        createClaudeCommand now b.input ts w .bash) := by
  refine ⟨?_, ?_, ?_, ?_⟩
  · intro now e
    cases e with
    | user u =>
      have hb : extractBashCommand now (.user u) = none := rfl
      simp only [commandsOfEntry, hb, Option.toList_none, List.nil_append]
      cases extractUserCommand now (.user u) <;> simp
    | assistant a =>
      have hu : extractUserCommand now (.assistant a) = none := rfl
      simp only [commandsOfEntry, hu, Option.toList_none, List.append_nil]
      cases extractBashCommand now (.assistant a) <;> simp
  · intro now u
    rfl
  · intro now a
    rfl
  · intro now b rest ts w hb
    simp only [extractBashCommand, findBashToolBlock]
    rw [List.find?_cons_of_pos _ hb]

/-- Witness for C10: an assistant entry carrying two Bash tool-use blocks
is decided by the first one. -/
theorem commandsOfEntry_at_most_one_witness :
    isBashToolUse bashTrueBlock = true ∧
    extractBashCommand 5
        (.assistant ⟨[bashTrueBlock, bashFalseBlock], none, none⟩) =
      createClaudeCommand 5 bashTrueBlock.input none none .bash :=
  ⟨by decide,
    commandsOfEntry_at_most_one.2.2.2 5 bashTrueBlock [bashFalseBlock]
      none none (by decide)⟩

/-- C8: a Project Stream keeps the project's `.jsonl` transcript files,
orders them ascending by last-modification time and concatenates their File
Streams in that order — whichever order the directory listing presents the
two files in — and a directory that cannot be listed yields the empty
sequence with one reported diagnostic rather than an exception.  Commands
inherit their position from file order alone, so within-file timestamps
(possibly absent) are irrelevant. -/
theorem createProjectStream_spec :
    (∀ (now : Nat) (f g : TranscriptFile),
      f.mtime < g.mtime →
      endsWith f.name (str ".jsonl") = true →
      endsWith g.name (str ".jsonl") = true →
      createProjectStream now (.ok [f, g]) =
        (createFileStream now f.entries ++ createFileStream now g.entries, 0) ∧
      createProjectStream now (.ok [g, f]) =
        (createFileStream now f.entries ++ createFileStream now g.entries, 0)) ∧
    (∀ now : Nat, createProjectStream now (.error ()) = ([], 1)) := by
  constructor
  · intro now f g hlt hf hg
    have hnlt : ¬ g.mtime < f.mtime := by omega
    constructor
    · simp [createProjectStream, List.filter, hf, hg, sortByMtime, insertByMtime,
        hlt]
    · simp [createProjectStream, List.filter, hf, hg, sortByMtime, insertByMtime,
        hlt, hnlt]
  · intro now
    rfl

/-- Witness for C8: two concrete files with mtimes 5 < 9, listed in
reversed order, still produce file A's commands before file B's. -/
theorem createProjectStream_spec_witness :
    fileA.mtime < fileB.mtime ∧
    endsWith fileA.name (str ".jsonl") = true ∧
    endsWith fileB.name (str ".jsonl") = true ∧
    createProjectStream 0 (.ok [fileB, fileA]) =
      (createFileStream 0 fileA.entries ++ createFileStream 0 fileB.entries, 0) :=
  ⟨by decide, by decide, by decide,
    (createProjectStream_spec.1 0 fileA fileB (by decide) (by decide)
      (by decide)).2⟩

/-! ### Correlator lemmas -/

theorem extractBashCommand_eq_candidate (now : Nat) (e : ConversationEntry) :
    extractBashCommand now e = (extractBashCandidate now e).map Prod.snd := by
  cases e with
  | user u => rfl
  | assistant a =>
    simp only [extractBashCommand, extractBashCandidate]
    cases findBashToolBlock a.content with
    | none => rfl
    | some b =>
      show createClaudeCommand now b.input a.timestamp a.cwd .bash =
        Option.map Prod.snd
          ((createClaudeCommand now b.input a.timestamp a.cwd .bash).map
            (fun c => (b.id, c)))
      cases createClaudeCommand now b.input a.timestamp a.cwd .bash <;> rfl

theorem processResultBlock_count (st : CorrelatorState) (b : ContentBlock) :
    (processResultBlock st b).2.length + (processResultBlock st b).1.pending.length
      = st.pending.length := by
  by_cases htype : (b.type == str "tool_result") = true
  · cases hid : b.tool_use_id with
    | none => simp [processResultBlock, htype, hid]
    | some x =>
      cases hfind : st.pending.find? (fun p => p.id == x) with
      | none => simp [processResultBlock, htype, hid, hfind]
      | some p =>
        have hmem : p ∈ st.pending := List.mem_of_find?_eq_some hfind
        have hpa := List.find?_some hfind
        have hlen : (st.pending.eraseP (fun q => q.id == x)).length
            = st.pending.length - 1 :=
          List.length_eraseP_of_mem hmem hpa
        have hpos : 0 < st.pending.length := List.length_pos.mpr (by
          intro hnil; rw [hnil] at hmem; exact absurd hmem (List.not_mem_nil p))
        simp only [processResultBlock, htype, if_true, hid, hfind, hlen,
          List.length_cons, List.length_nil]
        omega
  · simp [processResultBlock, htype]

theorem processResultBlocks_count (bs : List ContentBlock) :
    ∀ st : CorrelatorState,
    (processResultBlocks st bs).2.length + (processResultBlocks st bs).1.pending.length
      = st.pending.length := by
  induction bs with
  | nil => intro st; simp [processResultBlocks]
  | cons b rest ih =>
    intro st
    simp only [processResultBlocks, List.length_append]
    have h1 := processResultBlock_count st b
    have h2 := ih (processResultBlock st b).1
    omega

theorem processEntry_count (now : Nat) (st : CorrelatorState)
    (e : ConversationEntry) :
    (processEntry now st e).2.length + (processEntry now st e).1.pending.length
      = st.pending.length + candidateCount now e := by
  cases e with
  | assistant a =>
    have huser : extractUserCommand now (.assistant a) = none := rfl
    have hcand := extractBashCommand_eq_candidate now (.assistant a)
    simp only [processEntry, candidateCount, commandsOfEntry, huser,
      Option.toList_none, List.append_nil]
    cases hc : extractBashCandidate now (.assistant a) with
    | none =>
      rw [hc] at hcand
      simp [hcand]
    | some pair =>
      rw [hc] at hcand
      obtain ⟨oid, cmd⟩ := pair
      cases oid with
      | none =>
        simp [hcand]
        omega
      | some x =>
        simp [hcand]
  | user u =>
    have hbash : extractBashCommand now (.user u) = none := rfl
    simp only [processEntry, candidateCount, commandsOfEntry, hbash,
      Option.toList_none, List.nil_append, List.length_append]
    have h1 := processResultBlocks_count (userContentBlocks u.content) st
    cases hu : extractUserCommand now (.user u) with
    | none => simp only [Option.toList_none, List.length_nil]; omega
    | some c =>
      simp only [Option.toList_some, List.length_cons, List.length_nil,
        List.length_singleton]
      omega

/-- C4: for any entries fed to the (spec-modelled) File Stream, the number
of emitted Commands equals the number of extractable candidates — each
assistant tool invocation is emitted exactly once (on resolution or at the
flush) and each bang command exactly once, however result entries are
ordered and whether they arrive at all. -/
theorem runFileStream_no_loss :
    ∀ (now : Nat) (entries : List ConversationEntry),
    (runFileStream now entries).length =
      (entries.map (candidateCount now)).sum := by
  intro now entries
  have main : ∀ (es : List ConversationEntry) (st : CorrelatorState),
      (processEntries now st es).2.length +
        (processEntries now st es).1.pending.length
        = st.pending.length + (es.map (candidateCount now)).sum := by
    intro es
    induction es with
    | nil => intro st; simp [processEntries]
    | cons e rest ih =>
      intro st
      simp only [processEntries, List.map_cons, List.sum_cons, List.length_append]
      have h1 := processEntry_count now st e
      have h2 := ih (processEntry now st e).1
      omega
  have h := main entries initialCorrelatorState
  have hz : initialCorrelatorState.pending.length = 0 := rfl
  rw [hz] at h
  simp only [runFileStream, flushPendingCommands, finalCorrelatorState,
    List.length_append, List.length_map]
  omega

theorem processResultBlock_state (st : CorrelatorState) (b : ContentBlock) :
    (processResultBlock st b).1.pending.Sublist st.pending ∧
      (processResultBlock st b).1.counter = st.counter := by
  by_cases htype : (b.type == str "tool_result") = true
  · cases hid : b.tool_use_id with
    | none => simp [processResultBlock, htype, hid]
    | some x =>
      cases hfind : st.pending.find? (fun p => p.id == x) with
      | none => simp [processResultBlock, htype, hid, hfind]
      | some p =>
        simp only [processResultBlock, htype, if_true, hid, hfind]
        exact ⟨List.eraseP_sublist _, by trivial⟩
  · simp [processResultBlock, htype]

theorem processResultBlocks_state (bs : List ContentBlock) :
    ∀ st : CorrelatorState,
    (processResultBlocks st bs).1.pending.Sublist st.pending ∧
      (processResultBlocks st bs).1.counter = st.counter := by
  induction bs with
  | nil => intro st; exact ⟨List.Sublist.refl _, rfl⟩
  | cons b rest ih =>
    intro st
    obtain ⟨hs1, hc1⟩ := processResultBlock_state st b
    obtain ⟨hs2, hc2⟩ := ih (processResultBlock st b).1
    exact ⟨hs2.trans hs1, hc2.trans hc1⟩

theorem processEntry_inv (now : Nat) (st : CorrelatorState)
    (e : ConversationEntry)
    (h1 : st.pending.Pairwise (fun p q => p.order < q.order))
    (h2 : ∀ p ∈ st.pending, p.order < st.counter) :
    (processEntry now st e).1.pending.Pairwise (fun p q => p.order < q.order) ∧
      ∀ p ∈ (processEntry now st e).1.pending,
        p.order < (processEntry now st e).1.counter := by
  cases e with
  | assistant a =>
    simp only [processEntry]
    cases hc : extractBashCandidate now (.assistant a) with
    | none => exact ⟨h1, h2⟩
    | some pair =>
      obtain ⟨oid, cmd⟩ := pair
      cases oid with
      | none => exact ⟨h1, h2⟩
      | some x =>
        constructor
        · rw [List.pairwise_append]
          refine ⟨h1, List.pairwise_singleton _ _, ?_⟩
          intro p hp q hq
          rw [List.mem_singleton] at hq
          subst hq
          exact h2 p hp
        · intro p hp
          rcases List.mem_append.mp hp with h | h
          · exact Nat.lt_succ_of_lt (h2 p h)
          · rw [List.mem_singleton] at h
            subst h
            exact Nat.lt_succ_self _
  | user u =>
    obtain ⟨hs, hc⟩ := processResultBlocks_state (userContentBlocks u.content) st
    simp only [processEntry]
    constructor
    · exact h1.sublist hs
    · intro p hp
      rw [hc]
      exact h2 p (hs.mem hp)

theorem processEntries_inv (now : Nat) (es : List ConversationEntry) :
    ∀ st : CorrelatorState,
    st.pending.Pairwise (fun p q => p.order < q.order) →
    (∀ p ∈ st.pending, p.order < st.counter) →
    (processEntries now st es).1.pending.Pairwise (fun p q => p.order < q.order) ∧
      ∀ p ∈ (processEntries now st es).1.pending,
        p.order < (processEntries now st es).1.counter := by
  induction es with
  | nil => intro st h1 h2; exact ⟨h1, h2⟩
  | cons e rest ih =>
    intro st h1 h2
    obtain ⟨g1, g2⟩ := processEntry_inv now st e h1 h2
    exact ih (processEntry now st e).1 g1 g2

theorem processResultBlock_success (st : CorrelatorState) (b : ContentBlock) :
    ∀ c ∈ (processResultBlock st b).2, c.success.isSome = true := by
  by_cases htype : (b.type == str "tool_result") = true
  · cases hid : b.tool_use_id with
    | none => simp [processResultBlock, htype, hid]
    | some x =>
      cases hfind : st.pending.find? (fun p => p.id == x) with
      | none => simp [processResultBlock, htype, hid, hfind]
      | some p => simp [processResultBlock, htype, hid, hfind]
  · simp [processResultBlock, htype]

theorem processResultBlocks_success (bs : List ContentBlock) :
    ∀ (st : CorrelatorState), ∀ c ∈ (processResultBlocks st bs).2,
      c.success.isSome = true := by
  induction bs with
  | nil => intro st c hc; simp [processResultBlocks] at hc
  | cons b rest ih =>
    intro st c hc
    simp only [processResultBlocks, List.mem_append] at hc
    rcases hc with h | h
    · exact processResultBlock_success st b c h
    · exact ih (processResultBlock st b).1 c h

theorem processEntry_success (now : Nat) (st : CorrelatorState)
    (e : ConversationEntry) :
    ∀ c ∈ (processEntry now st e).2, c.success.isSome = true := by
  cases e with
  | assistant a =>
    simp only [processEntry]
    cases hc : extractBashCandidate now (.assistant a) with
    | none => simp
    | some pair =>
      obtain ⟨oid, cmd⟩ := pair
      cases oid with
      | none => simp
      | some x => simp
  | user u =>
    intro c hc
    simp only [processEntry, List.mem_append] at hc
    rcases hc with h | h
    · exact processResultBlocks_success (userContentBlocks u.content) st c h
    · cases hu : extractUserCommand now (.user u) with
      | none => rw [hu] at h; simp at h
      | some c0 =>
        rw [hu] at h
        rw [List.mem_singleton] at h
        subst h
        rfl

theorem processEntries_success (now : Nat) (es : List ConversationEntry) :
    ∀ (st : CorrelatorState), ∀ c ∈ (processEntries now st es).2,
      c.success.isSome = true := by
  induction es with
  | nil => intro st c hc; simp [processEntries] at hc
  | cons e rest ih =>
    intro st c hc
    simp only [processEntries, List.mem_append] at hc
    rcases hc with h | h
    · exact processEntry_success now st e c h
    · exact ih (processEntry now st e).1 c h

/-- C1: every Command the (spec-modelled) File Stream ever emits carries a
resolved success flag; the pending commands left at end-of-input have
strictly ascending creation-order numbers (so the flush emits them in
ascending creation order), and each of them is emitted with
success = true. -/
theorem runFileStream_resolved :
    ∀ (now : Nat) (entries : List ConversationEntry),
    (∀ c ∈ runFileStream now entries, c.success.isSome = true) ∧
    (finalCorrelatorState now entries).pending.Pairwise
      (fun p q => p.order < q.order) ∧
    (∀ p ∈ (finalCorrelatorState now entries).pending,
      { p.cmd with success := some true } ∈ runFileStream now entries) := by
  intro now entries
  refine ⟨?_, ?_, ?_⟩
  · intro c hc
    rw [runFileStream, List.mem_append] at hc
    rcases hc with h | h
    · exact processEntries_success now entries initialCorrelatorState c h
    · rw [flushPendingCommands, List.mem_map] at h
      obtain ⟨p, _, hp⟩ := h
      rw [← hp]
      rfl
  · exact (processEntries_inv now entries initialCorrelatorState
      (List.Pairwise.nil) (by intro p hp; simp [initialCorrelatorState] at hp)).1
  · intro p hp
    rw [runFileStream, List.mem_append]
    right
    rw [flushPendingCommands, List.mem_map]
    exact ⟨p, hp, rfl⟩

/-! ### Correlation correctness (C2) -/

theorem find?_append_singleton_neg {α : Type} {p : α → Bool}
    (l : List α) (q : α) (hq : p q = false) :
    (l ++ [q]).find? p = l.find? p := by
  induction l with
  | nil => simp [List.find?, hq]
  | cons a l ih =>
    by_cases ha : p a = true
    · simp [List.find?_cons_of_pos _ ha]
    · rw [List.cons_append, List.find?_cons_of_neg _ (by simpa using ha),
        List.find?_cons_of_neg _ (by simpa using ha)]
      exact ih

theorem find?_append_self_pending (l : List PendingCommand) (q : PendingCommand)
    (h : ∀ p ∈ l, p.id ≠ q.id) :
    (l ++ [q]).find? (fun p => p.id == q.id) = some q := by
  induction l with
  | nil => simp
  | cons a l ih =>
    have ha := h a (by simp)
    rw [List.cons_append, List.find?_cons_of_neg _ (by simpa using ha)]
    exact ih (fun p hp => h p (List.mem_cons_of_mem a hp))

theorem find?_eraseP_ne (l : List PendingCommand) (x y : Str) (hxy : y ≠ x) :
    (l.eraseP (fun q => q.id == y)).find? (fun p => p.id == x)
      = l.find? (fun p => p.id == x) := by
  induction l with
  | nil => rfl
  | cons p l ih =>
    by_cases hpy : (p.id == y) = true
    · have hy : p.id = y := by simpa using hpy
      have hpx : (p.id == x) = false := by
        simp only [hy]
        exact beq_false_of_ne hxy
      simp [List.eraseP_cons, List.find?_cons, hpy, hpx]
    · simp only [List.eraseP_cons, List.find?_cons, hpy]
      by_cases hpx : (p.id == x) = true
      · simp [hpx]
      · simp [hpx, ih]

theorem processResultBlock_find_preserve (st : CorrelatorState)
    (b : ContentBlock) (x : Str)
    (href : (b.type == str "tool_result" && b.tool_use_id == some x) = false) :
    (processResultBlock st b).1.pending.find? (fun p => p.id == x)
      = st.pending.find? (fun p => p.id == x) := by
  by_cases htype : (b.type == str "tool_result") = true
  · cases hid : b.tool_use_id with
    | none => simp [processResultBlock, htype, hid]
    | some y =>
      have hyx : y ≠ x := by
        intro h
        subst h
        rw [htype, hid] at href
        simp at href
      cases hfind : st.pending.find? (fun p => p.id == y) with
      | none => simp [processResultBlock, htype, hid, hfind]
      | some p =>
        simp only [processResultBlock, htype, if_true, hid, hfind]
        exact find?_eraseP_ne _ x y hyx
  · simp [processResultBlock, htype]

theorem processResultBlocks_find_preserve (bs : List ContentBlock) (x : Str) :
    ∀ st : CorrelatorState,
    (∀ b ∈ bs, (b.type == str "tool_result" && b.tool_use_id == some x) = false) →
    (processResultBlocks st bs).1.pending.find? (fun p => p.id == x)
      = st.pending.find? (fun p => p.id == x) := by
  induction bs with
  | nil => intro st _; rfl
  | cons b rest ih =>
    intro st h
    simp only [processResultBlocks]
    rw [ih (processResultBlock st b).1
      (fun b' hb' => h b' (List.mem_cons_of_mem b hb'))]
    exact processResultBlock_find_preserve st b x (h b (by simp))

theorem processEntry_find_preserve (now : Nat) (st : CorrelatorState)
    (e : ConversationEntry) (x : Str)
    (hins : insertsInvocationId now x e = false)
    (href : referencesResult x e = false) :
    (processEntry now st e).1.pending.find? (fun p => p.id == x)
      = st.pending.find? (fun p => p.id == x) := by
  cases e with
  | assistant a =>
    simp only [processEntry]
    cases hc : extractBashCandidate now (.assistant a) with
    | none => rfl
    | some pair =>
      obtain ⟨oid, cmd⟩ := pair
      cases oid with
      | none => rfl
      | some y =>
        have hyx : (y == x) = false := by
          rw [insertsInvocationId, hc] at hins
          exact hins
        exact find?_append_singleton_neg st.pending ⟨y, cmd, st.counter⟩ hyx
  | user u =>
    simp only [processEntry]
    apply processResultBlocks_find_preserve
    intro b hb
    rw [referencesResult] at href
    rw [List.any_eq_false] at href
    simpa using href b hb

theorem processEntries_find_preserve (now : Nat) (x : Str)
    (es : List ConversationEntry)
    (h : ∀ e ∈ es, insertsInvocationId now x e = false ∧
      referencesResult x e = false) :
    ∀ st : CorrelatorState,
    (processEntries now st es).1.pending.find? (fun p => p.id == x)
      = st.pending.find? (fun p => p.id == x) := by
  induction es with
  | nil => intro st; rfl
  | cons e rest ih =>
    intro st
    simp only [processEntries]
    rw [ih (fun e' he' => h e' (List.mem_cons_of_mem e he'))
      (processEntry now st e).1]
    exact processEntry_find_preserve now st e x (h e (by simp)).1
      (h e (by simp)).2

theorem processEntry_id_preserve (now : Nat) (st : CorrelatorState)
    (e : ConversationEntry) (x : Str)
    (hins : insertsInvocationId now x e = false)
    (h : ∀ p ∈ st.pending, p.id ≠ x) :
    ∀ p ∈ (processEntry now st e).1.pending, p.id ≠ x := by
  cases e with
  | assistant a =>
    simp only [processEntry]
    cases hc : extractBashCandidate now (.assistant a) with
    | none => exact h
    | some pair =>
      obtain ⟨oid, cmd⟩ := pair
      cases oid with
      | none => exact h
      | some y =>
        intro p hp
        rcases List.mem_append.mp hp with hm | hm
        · exact h p hm
        · rw [List.mem_singleton] at hm
          subst hm
          have hyx : (y == x) = false := by
            rw [insertsInvocationId, hc] at hins
            exact hins
          simpa using hyx
  | user u =>
    obtain ⟨hs, _⟩ := processResultBlocks_state (userContentBlocks u.content) st
    intro p hp
    exact h p (hs.mem hp)

theorem processEntries_id_preserve (now : Nat) (x : Str)
    (es : List ConversationEntry)
    (hins : ∀ e ∈ es, insertsInvocationId now x e = false) :
    ∀ st : CorrelatorState, (∀ p ∈ st.pending, p.id ≠ x) →
    ∀ p ∈ (processEntries now st es).1.pending, p.id ≠ x := by
  induction es with
  | nil => intro st h; exact h
  | cons e rest ih =>
    intro st h
    simp only [processEntries]
    exact ih (fun e' he' => hins e' (List.mem_cons_of_mem e he'))
      (processEntry now st e).1
      (processEntry_id_preserve now st e x (hins e (by simp)) h)

theorem processEntries_append (now : Nat) (l1 l2 : List ConversationEntry) :
    ∀ st : CorrelatorState,
    processEntries now st (l1 ++ l2)
      = ((processEntries now (processEntries now st l1).1 l2).1,
         (processEntries now st l1).2 ++
           (processEntries now (processEntries now st l1).1 l2).2) := by
  induction l1 with
  | nil => intro st; simp [processEntries]
  | cons e rest ih =>
    intro st
    simp only [List.cons_append, processEntries, List.append_eq, ih,
      List.append_assoc]

theorem processEntry_invoke (now : Nat) (st : CorrelatorState)
    (a : AssistantEntry) (x : Str) (cmd : Command)
    (hc : extractBashCandidate now (.assistant a) = some (some x, cmd)) :
    processEntry now st (.assistant a)
      = ({ pending := st.pending ++ [⟨x, cmd, st.counter⟩],
           counter := st.counter + 1 }, []) := by
  simp [processEntry, hc]

theorem processEntry_result (now : Nat) (st : CorrelatorState)
    (x : Str) (e : Bool) (ts : Option Nat) (w : Option Str)
    (cmd : Command) (k : Nat)
    (hfind : st.pending.find? (fun p => p.id == x) = some ⟨x, cmd, k⟩) :
    processEntry now st (.user ⟨.blocks [mkToolResultBlock x e], ts, w⟩)
      = ({ st with pending := st.pending.eraseP (fun q => q.id == x) },
         [{ cmd with success := some (!e) }]) := by
  have hbang : extractUserCommand now
      (.user ⟨.blocks [mkToolResultBlock x e], ts, w⟩) = none := rfl
  have h1 : processResultBlocks st [mkToolResultBlock x e]
      = ({ st with pending := st.pending.eraseP (fun q => q.id == x) },
         [{ cmd with success := some (!e) }]) := by
    simp [processResultBlocks, processResultBlock, mkToolResultBlock, hfind]
  simp only [processEntry, userContentBlocks, h1, hbang]
  simp

/-- C2: for a file stream holding an assistant tool-invocation with id `X`
and, anywhere later and in any order relative to other ids, a user result
block referencing `X` with error flag `e`: the Command for `X` is emitted
exactly when that result block is processed, with success = `not e`; it is
also an element of the full stream output.  If no result for `X` ever
arrives, the Command for `X` is emitted after end of stream with
success = `true`. -/
theorem correlation_correct :
    ∀ (now : Nat) (pre mid post : List ConversationEntry)
      (a : AssistantEntry) (x : Str) (cmd : Command) (e : Bool)
      (ts : Option Nat) (w : Option Str),
    extractBashCandidate now (.assistant a) = some (some x, cmd) →
    (∀ en ∈ pre ++ mid ++ post, insertsInvocationId now x en = false) →
    (∀ en ∈ mid, referencesResult x en = false) →
    ((processEntry now
        (processEntries now initialCorrelatorState
          (pre ++ [.assistant a] ++ mid)).1
        (.user ⟨.blocks [mkToolResultBlock x e], ts, w⟩)).2
      = [{ cmd with success := some (!e) }]) ∧
    ({ cmd with success := some (!e) } ∈
      runFileStream now
        (pre ++ [.assistant a] ++ mid ++
          [.user ⟨.blocks [mkToolResultBlock x e], ts, w⟩] ++ post)) ∧
    ((∀ en ∈ post, referencesResult x en = false) →
      { cmd with success := some true } ∈
        runFileStream now (pre ++ [.assistant a] ++ mid ++ post)) := by
  intro now pre mid post a x cmd e ts w hc hins hmid
  have hinsPre : ∀ en ∈ pre, insertsInvocationId now x en = false :=
    fun en hen => hins en (by simp [hen])
  have hinsMid : ∀ en ∈ mid, insertsInvocationId now x en = false :=
    fun en hen => hins en (by simp [hen])
  have hinsPost : ∀ en ∈ post, insertsInvocationId now x en = false :=
    fun en hen => hins en (by simp [hen])
  -- after `pre`, x is not pending
  have hpre : ∀ p ∈ (processEntries now initialCorrelatorState pre).1.pending,
      p.id ≠ x :=
    processEntries_id_preserve now x pre hinsPre initialCorrelatorState
      (by intro p hp; simp [initialCorrelatorState] at hp)
  -- after the invocation, x is pending with command `cmd`
  set st1 := (processEntries now initialCorrelatorState pre).1 with hst1
  have hinvk := processEntry_invoke now st1 a x cmd hc
  have hfind1 : (processEntry now st1 (.assistant a)).1.pending.find?
      (fun p => p.id == x) = some ⟨x, cmd, st1.counter⟩ := by
    rw [hinvk]
    exact find?_append_self_pending st1.pending ⟨x, cmd, st1.counter⟩ hpre
  -- the pending entry survives `mid`
  have hAfterA : (processEntries now initialCorrelatorState
      (pre ++ [.assistant a])).1 = (processEntry now st1 (.assistant a)).1 := by
    rw [processEntries_append]
    simp [processEntries]
  have hfind2 : (processEntries now initialCorrelatorState
      (pre ++ [.assistant a] ++ mid)).1.pending.find? (fun p => p.id == x)
      = some ⟨x, cmd, st1.counter⟩ := by
    rw [processEntries_append]
    rw [processEntries_find_preserve now x mid
      (fun en hen => ⟨hinsMid en hen, hmid en hen⟩)]
    rw [hAfterA]
    exact hfind1
  set st3 := (processEntries now initialCorrelatorState
    (pre ++ [.assistant a] ++ mid)).1 with hst3
  have hres := processEntry_result now st3 x e ts w cmd st1.counter hfind2
  refine ⟨?_, ?_, ?_⟩
  · rw [hres]
  · -- the resolved command is part of the processed output of the full run
    rw [runFileStream, List.mem_append]
    left
    have hassoc : pre ++ [ConversationEntry.assistant a] ++ mid ++
        [ConversationEntry.user ⟨.blocks [mkToolResultBlock x e], ts, w⟩] ++ post
      = (pre ++ [ConversationEntry.assistant a] ++ mid) ++
        ([ConversationEntry.user ⟨.blocks [mkToolResultBlock x e], ts, w⟩] ++
          post) := by
      simp [List.append_assoc]
    rw [hassoc, processEntries_append, List.mem_append]
    right
    rw [processEntries_append, List.mem_append]
    left
    rw [← hst3]
    simp only [processEntries, hres]
    simp
  · intro hpost
    -- x is still pending at end of stream, with command `cmd`
    have hfind3 : (processEntries now initialCorrelatorState
        (pre ++ [.assistant a] ++ mid ++ post)).1.pending.find?
        (fun p => p.id == x) = some ⟨x, cmd, st1.counter⟩ := by
      rw [processEntries_append now (pre ++ [ConversationEntry.assistant a] ++ mid) post]
      rw [processEntries_find_preserve now x post
        (fun en hen => ⟨hinsPost en hen, hpost en hen⟩)]
      exact hfind2
    have hmem : (⟨x, cmd, st1.counter⟩ : PendingCommand) ∈
        (finalCorrelatorState now
          (pre ++ [.assistant a] ++ mid ++ post)).pending :=
      List.mem_of_find?_eq_some hfind3
    rw [runFileStream, List.mem_append]
    right
    rw [flushPendingCommands, List.mem_map]
    exact ⟨⟨x, cmd, st1.counter⟩, hmem, rfl⟩

/-- Witness for C2: two invocations `"xxx"` and `"yyy"` whose results
arrive out of order; the command for `"xxx"` resolves to failure from its
own result block. -/
theorem correlation_correct_witness :
    extractBashCandidate 0 (.assistant ⟨[bashBlockWithId], none, none⟩)
      = some (some (str "xxx"), cmdTrue0) ∧
    { cmdTrue0 with success := some false } ∈
      runFileStream 0
        ([.assistant ⟨[bashBlockWithId2], none, none⟩] ++
          [.assistant ⟨[bashBlockWithId], none, none⟩] ++
          [.user ⟨.blocks [mkToolResultBlock (str "yyy") false], none, none⟩] ++
          [.user ⟨.blocks [mkToolResultBlock (str "xxx") true], none, none⟩] ++
          []) :=
  ⟨by decide,
    (correlation_correct 0
      [.assistant ⟨[bashBlockWithId2], none, none⟩]
      [.user ⟨.blocks [mkToolResultBlock (str "yyy") false], none, none⟩]
      []
      ⟨[bashBlockWithId], none, none⟩ (str "xxx") cmdTrue0 true none none
      (by decide) (by decide) (by decide)).2.1⟩

/-! ### Merger lemmas -/

theorem findEarliestAux_all_none (cs : List StreamWithBuffer) :
    ∀ i0 : Nat, (∀ sb ∈ cs, sb.buffer = none) →
    findEarliestAux cs i0 none = none := by
  induction cs with
  | nil => intro i0 _; rfl
  | cons sb rest ih =>
    intro i0 h
    have hb := h sb (by simp)
    simp only [findEarliestAux, hb, ite_self]
    exact ih (i0 + 1) (fun x hx => h x (List.mem_cons_of_mem sb hx))

theorem findEarliestAux_none (cs : List StreamWithBuffer) :
    ∀ (i0 : Nat) (best : Option (Nat × Command)),
    findEarliestAux cs i0 best = none →
    best = none ∧ ∀ sb ∈ cs, sb.exhausted = false → sb.buffer = none := by
  induction cs with
  | nil =>
    intro i0 best h
    exact ⟨h, by intro sb hsb; simp at hsb⟩
  | cons sb rest ih =>
    intro i0 best h
    simp only [findEarliestAux] at h
    by_cases hex : sb.exhausted = true
    · rw [if_pos hex] at h
      obtain ⟨h1, h2⟩ := ih (i0 + 1) best h
      refine ⟨h1, ?_⟩
      intro sb' hsb' hex'
      rcases List.mem_cons.mp hsb' with he | he
      · subst he; rw [hex] at hex'; cases hex'
      · exact h2 sb' he hex'
    · rw [if_neg hex] at h
      cases hb : sb.buffer with
      | none =>
        rw [hb] at h
        obtain ⟨h1, h2⟩ := ih (i0 + 1) best h
        refine ⟨h1, ?_⟩
        intro sb' hsb' hex'
        rcases List.mem_cons.mp hsb' with he | he
        · subst he; exact hb
        · exact h2 sb' he hex'
      | some b =>
        rw [hb] at h
        simp only [] at h
        cases best with
        | none =>
          simp only [] at h
          obtain ⟨h1, _⟩ := ih (i0 + 1) (some (i0, b)) h
          cases h1
        | some jb =>
          obtain ⟨j0, bb⟩ := jb
          simp only [] at h
          by_cases hcmp : b.timestamp < bb.timestamp
          · rw [if_pos hcmp] at h
            obtain ⟨h1, _⟩ := ih (i0 + 1) (some (i0, b)) h
            cases h1
          · rw [if_neg hcmp] at h
            obtain ⟨h1, _⟩ := ih (i0 + 1) (some (j0, bb)) h
            cases h1

theorem findEarliestAux_some (cs : List StreamWithBuffer) :
    ∀ (i0 : Nat) (best : Option (Nat × Command)) (j : Nat) (b : Command),
    findEarliestAux cs i0 best = some (j, b) →
    (best = some (j, b) ∨
      ∃ k sb, cs[k]? = some sb ∧ sb.exhausted = false ∧ sb.buffer = some b ∧
        j = i0 + k) ∧
    (∀ (k : Nat) (sb : StreamWithBuffer) (b' : Command), cs[k]? = some sb →
      sb.exhausted = false → sb.buffer = some b' →
      b.timestamp ≤ b'.timestamp) ∧
    (∀ (j' : Nat) (b' : Command), best = some (j', b') →
      b.timestamp ≤ b'.timestamp) := by
  induction cs with
  | nil =>
    intro i0 best j b h
    simp only [findEarliestAux] at h
    refine ⟨Or.inl h, ?_, ?_⟩
    · intro k sb b' hk; simp at hk
    · intro j' b' hb'
      rw [h] at hb'
      injection hb' with hb2
      injection hb2 with _ hb3
      rw [hb3]
  | cons sb rest ih =>
    intro i0 best j b h
    simp only [findEarliestAux] at h
    by_cases hex : sb.exhausted = true
    · rw [if_pos hex] at h
      obtain ⟨v, m, bd⟩ := ih (i0 + 1) best j b h
      refine ⟨?_, ?_, bd⟩
      · rcases v with hv | ⟨k, sb', hk, he', hb', hj⟩
        · exact Or.inl hv
        · exact Or.inr ⟨k + 1, sb', by simpa using hk, he', hb', by omega⟩
      · intro k sb' b' hk he' hb'
        cases k with
        | zero =>
          simp only [List.getElem?_cons_zero, Option.some.injEq] at hk
          subst hk
          rw [hex] at he'; cases he'
        | succ n =>
          simp only [List.getElem?_cons_succ] at hk
          exact m n sb' b' hk he' hb'
    · rw [if_neg hex] at h
      cases hb : sb.buffer with
      | none =>
        rw [hb] at h
        obtain ⟨v, m, bd⟩ := ih (i0 + 1) best j b h
        refine ⟨?_, ?_, bd⟩
        · rcases v with hv | ⟨k, sb', hk, he', hb', hj⟩
          · exact Or.inl hv
          · exact Or.inr ⟨k + 1, sb', by simpa using hk, he', hb', by omega⟩
        · intro k sb' b' hk he' hb'
          cases k with
          | zero =>
            simp only [List.getElem?_cons_zero, Option.some.injEq] at hk
            subst hk
            rw [hb] at hb'; cases hb'
          | succ n =>
            simp only [List.getElem?_cons_succ] at hk
            exact m n sb' b' hk he' hb'
      | some b0 =>
        rw [hb] at h
        simp only [] at h
        have hexf : sb.exhausted = false := by
          cases hx : sb.exhausted
          · rfl
          · exact absurd hx hex
        cases best with
        | none =>
          simp only [] at h
          obtain ⟨v, m, bd⟩ := ih (i0 + 1) (some (i0, b0)) j b h
          have hbb0 : b.timestamp ≤ b0.timestamp := bd i0 b0 rfl
          refine ⟨?_, ?_, ?_⟩
          · rcases v with hv | ⟨k, sb', hk, he', hb', hj⟩
            · injection hv with hv1
              injection hv1 with hj0 hb2
              refine Or.inr ⟨0, sb, by simp, hexf, ?_, by omega⟩
              rw [hb, hb2]
            · exact Or.inr ⟨k + 1, sb', by simpa using hk, he', hb', by omega⟩
          · intro k sb' b' hk he' hb'
            cases k with
            | zero =>
              simp only [List.getElem?_cons_zero, Option.some.injEq] at hk
              subst hk
              rw [hb] at hb'
              injection hb' with hb2
              rw [← hb2]
              exact hbb0
            | succ n =>
              simp only [List.getElem?_cons_succ] at hk
              exact m n sb' b' hk he' hb'
          · intro j' b' hb'; cases hb'
        | some jb =>
          obtain ⟨j0, bb⟩ := jb
          simp only [] at h
          by_cases hcmp : b0.timestamp < bb.timestamp
          · rw [if_pos hcmp] at h
            obtain ⟨v, m, bd⟩ := ih (i0 + 1) (some (i0, b0)) j b h
            have hbb0 : b.timestamp ≤ b0.timestamp := bd i0 b0 rfl
            refine ⟨?_, ?_, ?_⟩
            · rcases v with hv | ⟨k, sb', hk, he', hb', hj⟩
              · injection hv with hv1
                injection hv1 with hj0 hb2
                refine Or.inr ⟨0, sb, by simp, hexf, ?_, by omega⟩
                rw [hb, hb2]
              · exact Or.inr ⟨k + 1, sb', by simpa using hk, he', hb', by omega⟩
            · intro k sb' b' hk he' hb'
              cases k with
              | zero =>
                simp only [List.getElem?_cons_zero, Option.some.injEq] at hk
                subst hk
                rw [hb] at hb'
                injection hb' with hb2
                rw [← hb2]
                exact hbb0
              | succ n =>
                simp only [List.getElem?_cons_succ] at hk
                exact m n sb' b' hk he' hb'
            · intro j' b' hbest
              injection hbest with hbest1
              injection hbest1 with _ hbb
              rw [← hbb]
              exact Nat.le_trans hbb0 (Nat.le_of_lt hcmp)
          · rw [if_neg hcmp] at h
            obtain ⟨v, m, bd⟩ := ih (i0 + 1) (some (j0, bb)) j b h
            have hbbb : b.timestamp ≤ bb.timestamp := bd j0 bb rfl
            have hb0 : b.timestamp ≤ b0.timestamp :=
              Nat.le_trans hbbb (Nat.le_of_not_lt hcmp)
            refine ⟨?_, ?_, ?_⟩
            · rcases v with hv | ⟨k, sb', hk, he', hb', hj⟩
              · exact Or.inl hv
              · exact Or.inr ⟨k + 1, sb', by simpa using hk, he', hb', by omega⟩
            · intro k sb' b' hk he' hb'
              cases k with
              | zero =>
                simp only [List.getElem?_cons_zero, Option.some.injEq] at hk
                subst hk
                rw [hb] at hb'
                injection hb' with hb2
                rw [← hb2]
                exact hb0
              | succ n =>
                simp only [List.getElem?_cons_succ] at hk
                exact m n sb' b' hk he' hb'
            · intro j' b' hbest
              injection hbest with hbest1
              injection hbest1 with _ hbb
              rw [← hbb]
              exact hbbb

theorem findEarliestCommand_none_spec (cs : List StreamWithBuffer)
    (h : findEarliestCommand cs = none) :
    ∀ sb ∈ cs, sb.exhausted = false → sb.buffer = none :=
  (findEarliestAux_none cs 0 none h).2

theorem findEarliestCommand_some_spec (cs : List StreamWithBuffer)
    (i : Nat) (b : Command) (h : findEarliestCommand cs = some (i, b)) :
    (∃ sb, cs[i]? = some sb ∧ sb.exhausted = false ∧ sb.buffer = some b) ∧
    ∀ (k : Nat) (sb : StreamWithBuffer) (b' : Command), cs[k]? = some sb →
      sb.exhausted = false → sb.buffer = some b' →
      b.timestamp ≤ b'.timestamp := by
  obtain ⟨v, m, _⟩ := findEarliestAux_some cs 0 none i b h
  refine ⟨?_, m⟩
  rcases v with hv | ⟨k, sb, hk, he, hb, hj⟩
  · cases hv
  · have hik : i = k := by omega
    subst hik
    exact ⟨sb, hk, he, hb⟩

theorem merge_none (cs : List StreamWithBuffer)
    (hfe : findEarliestCommand cs = none) :
    mergeStreamsWithBuffering cs = ([], 0) := by
  rw [mergeStreamsWithBuffering.eq_def, hfe]

theorem merge_step (cs : List StreamWithBuffer) (i : Nat) (cmd : Command)
    (sb : StreamWithBuffer) (hfe : findEarliestCommand cs = some (i, cmd))
    (hget : cs[i]? = some sb) (hbuf : sb.buffer = some cmd) :
    mergeStreamsWithBuffering cs
      = (cmd :: (mergeStreamsWithBuffering (cs.set i (refillBuffer sb).1)).1,
         (refillBuffer sb).2 +
           (mergeStreamsWithBuffering (cs.set i (refillBuffer sb).1)).2) := by
  rw [mergeStreamsWithBuffering.eq_def]
  split
  · rename_i h1
    rw [hfe] at h1
    cases h1
  · rename_i i' snd h1
    rw [hfe] at h1
    injection h1 with h1'
    injection h1' with hi hcmd
    subst hi
    split
    · rename_i h2
      rw [hget] at h2
      cases h2
    · rename_i sb' h2
      rw [hget] at h2
      injection h2 with h2'
      subst h2'
      split
      · rename_i h3
        rw [hbuf] at h3
        cases h3
      · rename_i cmd'' h3
        rw [hbuf] at h3
        injection h3 with h3'
        subst h3'
        rfl

theorem getElem?_decomp {α : Type} {l : List α} {i : Nat} {a : α}
    (h : l[i]? = some a) :
    ∃ l1 l2, l = l1 ++ a :: l2 ∧ l1.length = i ∧
      ∀ b : α, l.set i b = l1 ++ b :: l2 := by
  induction l generalizing i with
  | nil => simp at h
  | cons hd tl ih =>
    cases i with
    | zero =>
      simp only [List.getElem?_cons_zero, Option.some.injEq] at h
      subst h
      exact ⟨[], tl, rfl, rfl, fun b => rfl⟩
    | succ n =>
      simp only [List.getElem?_cons_succ] at h
      obtain ⟨l1, l2, he, hl, hset⟩ := ih h
      refine ⟨hd :: l1, l2, by simp [he], by simp [hl], ?_⟩
      intro b
      simp only [List.set_cons_succ, hset b, List.cons_append]

theorem refillBuffer_size_lt (sb : StreamWithBuffer) (cmd : Command)
    (hb : sb.buffer = some cmd) :
    bufferSize (refillBuffer sb).1 < bufferSize sb := by
  cases hs : sb.stream with
  | nil => simp [refillBuffer, bufferSize, hs, hb]
  | cons p rest =>
    cases p with
    | ok v => simp [refillBuffer, bufferSize, hs, hb]
    | error u =>
      simp [refillBuffer, bufferSize, hs, hb]
      omega

theorem refillBuffer_spec (sb : StreamWithBuffer) (cmd : Command)
    (hb : sb.buffer = some cmd) (hinv : CursorInv sb) :
    CursorInv (refillBuffer sb).1 ∧
    cursorContents sb = cmd :: cursorContents (refillBuffer sb).1 ∧
    errorCount sb.stream = (refillBuffer sb).2
      + errorCount (refillBuffer sb).1.stream := by
  obtain ⟨hi1, hi2, hi3⟩ := hinv
  have hex : sb.exhausted = false := by
    cases hx : sb.exhausted
    · rfl
    · rw [hi1 hx] at hb; cases hb
  cases hs : sb.stream with
  | nil =>
    have hrf : refillBuffer sb
        = ({ stream := [], buffer := none, exhausted := true }, 0) := by
      simp [refillBuffer, hs]
    rw [hrf]
    refine ⟨⟨fun _ => rfl, fun _ => rfl, rfl⟩, ?_, ?_⟩
    · simp [cursorContents, okValues, hs, hb]
    · simp [errorCount, hs]
  | cons p rest =>
    cases p with
    | ok v =>
      rw [hs] at hi3
      have hrf : refillBuffer sb
          = ({ sb with stream := rest, buffer := some v }, 0) := by
        simp [refillBuffer, hs]
      rw [hrf]
      refine ⟨⟨?_, ?_, ?_⟩, ?_, ?_⟩
      · intro hxx
        simp only [] at hxx
        rw [hxx] at hex
        cases hex
      · intro hxx
        simp only [] at hxx
        cases hxx
      · exact hi3
      · simp [cursorContents, okValues, hs, hb, Except.toOption]
      · simp [errorCount, hs, Except.isOk, Except.toBool]
    | error u =>
      rw [hs] at hi3
      have hrest : rest = [] := by
        cases rest with
        | nil => rfl
        | cons q t => simp [errorLastOnly] at hi3
      subst hrest
      have hrf : refillBuffer sb
          = ({ stream := [], buffer := none, exhausted := true }, 1) := by
        simp [refillBuffer, hs]
      rw [hrf]
      refine ⟨⟨fun _ => rfl, fun _ => rfl, rfl⟩, ?_, ?_⟩
      · simp [cursorContents, okValues, hs, hb, Except.toOption]
      · simp [errorCount, hs, Except.isOk, Except.toBool]

theorem flatMap_eq_nil_of {α β : Type} (l : List α) (f : α → List β)
    (h : ∀ x ∈ l, f x = []) : l.flatMap f = [] := by
  induction l with
  | nil => rfl
  | cons a t ih =>
    simp only [List.flatMap_cons, h a (by simp), List.nil_append]
    exact ih (fun x hx => h x (List.mem_cons_of_mem a hx))

theorem flatMap_map_fn {α β γ : Type} (l : List α) (f : α → β) (g : β → List γ) :
    (l.map f).flatMap g = l.flatMap (fun x => g (f x)) := by
  induction l with
  | nil => rfl
  | cons a t ih => simp [List.flatMap_cons, ih]

theorem flatMap_congr_mem {α β : Type} (l : List α) (f g : α → List β)
    (h : ∀ x ∈ l, f x = g x) : l.flatMap f = l.flatMap g := by
  induction l with
  | nil => rfl
  | cons a t ih =>
    simp only [List.flatMap_cons, h a (by simp)]
    rw [ih (fun x hx => h x (List.mem_cons_of_mem a hx))]

theorem flatMap_ident {α : Type} (l : List (List α)) :
    l.flatMap (fun x => x) = l.flatten := by
  induction l with
  | nil => rfl
  | cons a t ih => simp [List.flatMap_cons, List.flatten_cons, ih]

theorem sum_map_add {α : Type} (l : List α) (f g : α → Nat) :
    (l.map f).sum + (l.map g).sum = (l.map (fun x => f x + g x)).sum := by
  induction l with
  | nil => rfl
  | cons a t ih => simp only [List.map_cons, List.sum_cons]; omega

/-- The buffered merge loop emits a permutation of all the commands the
cursors still owe, and reports one diagnostic per error pull. -/
theorem merge_perm_diag : ∀ (n : Nat) (cs : List StreamWithBuffer),
    buffersSize cs ≤ n → (∀ sb ∈ cs, CursorInv sb) →
    (mergeStreamsWithBuffering cs).1.Perm (cs.flatMap cursorContents) ∧
    (mergeStreamsWithBuffering cs).2
      = (cs.map (fun sb => errorCount sb.stream)).sum := by
  intro n
  induction n with
  | zero =>
    intro cs hsize hinv
    have hall : ∀ sb ∈ cs, sb.buffer = none ∧ sb.stream = [] := by
      intro sb hsb
      have h1 : bufferSize sb ≤ buffersSize cs :=
        List.le_sum_of_mem (List.mem_map_of_mem _ hsb)
      have h0 : bufferSize sb = 0 := by omega
      rw [bufferSize] at h0
      constructor
      · cases hbv : sb.buffer with
        | none => rfl
        | some v => rw [hbv] at h0; simp at h0
      · have hlen : sb.stream.length = 0 := by omega
        exact List.length_eq_zero.mp hlen
    have hfe : findEarliestCommand cs = none :=
      findEarliestAux_all_none cs 0 (fun sb hsb => (hall sb hsb).1)
    rw [merge_none cs hfe]
    constructor
    · have hempty : cs.flatMap cursorContents = [] :=
        flatMap_eq_nil_of cs cursorContents (fun sb hsb => by
          simp [cursorContents, (hall sb hsb).1, (hall sb hsb).2, okValues])
      rw [hempty]
    · symm
      apply List.sum_eq_zero
      intro x hx
      obtain ⟨sb, hsb, hxe⟩ := List.mem_map.mp hx
      rw [← hxe, (hall sb hsb).2]
      rfl
  | succ n ih =>
    intro cs hsize hinv
    cases hfe : findEarliestCommand cs with
    | none =>
      rw [merge_none cs hfe]
      have hall : ∀ sb ∈ cs, sb.buffer = none ∧ sb.stream = [] := by
        intro sb hsb
        have hb : sb.buffer = none := by
          cases hx : sb.exhausted
          · exact findEarliestCommand_none_spec cs hfe sb hsb hx
          · exact (hinv sb hsb).1 hx
        exact ⟨hb, (hinv sb hsb).2.1 hb⟩
      constructor
      · have hempty : cs.flatMap cursorContents = [] :=
          flatMap_eq_nil_of cs cursorContents (fun sb hsb => by
            simp [cursorContents, (hall sb hsb).1, (hall sb hsb).2, okValues])
        rw [hempty]
      · symm
        apply List.sum_eq_zero
        intro x hx
        obtain ⟨sb, hsb, hxe⟩ := List.mem_map.mp hx
        rw [← hxe, (hall sb hsb).2]
        rfl
    | some pair =>
      obtain ⟨i, cmd⟩ := pair
      obtain ⟨⟨sb, hget, hex, hbuf⟩, hmin⟩ :=
        findEarliestCommand_some_spec cs i cmd hfe
      have hsbmem : sb ∈ cs := List.getElem?_mem hget
      obtain ⟨hinv', hcont, herr⟩ := refillBuffer_spec sb cmd hbuf (hinv sb hsbmem)
      obtain ⟨l1, l2, hdec, hlen, hset⟩ := getElem?_decomp hget
      have hszlt : bufferSize (refillBuffer sb).1 < bufferSize sb :=
        refillBuffer_size_lt sb cmd hbuf
      have hsz : buffersSize (cs.set i (refillBuffer sb).1) ≤ n := by
        have h1 : buffersSize cs
            = buffersSize l1 + (bufferSize sb + buffersSize l2) := by
          rw [hdec]
          simp [buffersSize, List.map_append, List.sum_append]
        have h2 : buffersSize (cs.set i (refillBuffer sb).1)
            = buffersSize l1 + (bufferSize (refillBuffer sb).1 + buffersSize l2) := by
          rw [hset]
          simp [buffersSize, List.map_append, List.sum_append]
        omega
      have hinvAll : ∀ x ∈ cs.set i (refillBuffer sb).1, CursorInv x := by
        rw [hset]
        intro x hx
        rcases List.mem_append.mp hx with hx | hx
        · exact hinv x (by rw [hdec]; exact List.mem_append_left _ hx)
        · rcases List.mem_cons.mp hx with hx | hx
          · rw [hx]; exact hinv'
          · exact hinv x (by
              rw [hdec]
              exact List.mem_append_right _ (List.mem_cons_of_mem _ hx))
      obtain ⟨ihp, ihd⟩ := ih (cs.set i (refillBuffer sb).1) hsz hinvAll
      rw [merge_step cs i cmd sb hfe hget hbuf]
      constructor
      · have hflat' : (cs.set i (refillBuffer sb).1).flatMap cursorContents
            = l1.flatMap cursorContents ++
              (cursorContents (refillBuffer sb).1 ++ l2.flatMap cursorContents) := by
          rw [hset]
          simp [List.flatMap_append, List.flatMap_cons]
        have hflat : cs.flatMap cursorContents
            = l1.flatMap cursorContents ++
              (cursorContents sb ++ l2.flatMap cursorContents) := by
          rw [hdec]
          simp [List.flatMap_append, List.flatMap_cons]
        rw [hflat, hcont]
        have p1 : (cmd ::
              (mergeStreamsWithBuffering (cs.set i (refillBuffer sb).1)).1).Perm
            (cmd :: (l1.flatMap cursorContents ++
              (cursorContents (refillBuffer sb).1 ++ l2.flatMap cursorContents))) := by
          rw [← hflat']
          exact ihp.cons cmd
        exact p1.trans List.perm_middle.symm
      · have hsum1 : (cs.map (fun sb => errorCount sb.stream)).sum
            = (l1.map (fun sb => errorCount sb.stream)).sum +
              (errorCount sb.stream +
                (l2.map (fun sb => errorCount sb.stream)).sum) := by
          rw [hdec]
          simp [List.map_append, List.sum_append]
        have hsum2 : ((cs.set i (refillBuffer sb).1).map
              (fun sb => errorCount sb.stream)).sum
            = (l1.map (fun sb => errorCount sb.stream)).sum +
              (errorCount (refillBuffer sb).1.stream +
                (l2.map (fun sb => errorCount sb.stream)).sum) := by
          rw [hset]
          simp [List.map_append, List.sum_append]
        rw [ihd, hsum1, hsum2]
        omega

/-- The buffered merge loop emits in non-decreasing timestamp order when
every cursor's contents are sorted. -/
theorem merge_sorted : ∀ (n : Nat) (cs : List StreamWithBuffer),
    buffersSize cs ≤ n → (∀ sb ∈ cs, CursorInv sb) →
    (∀ sb ∈ cs, (cursorContents sb).Pairwise cmdLE) →
    (mergeStreamsWithBuffering cs).1.Pairwise cmdLE := by
  intro n
  induction n with
  | zero =>
    intro cs hsize hinv hsort
    have hall : ∀ sb ∈ cs, sb.buffer = none := by
      intro sb hsb
      have h1 : bufferSize sb ≤ buffersSize cs :=
        List.le_sum_of_mem (List.mem_map_of_mem _ hsb)
      rw [bufferSize] at h1
      cases hbv : sb.buffer with
      | none => rfl
      | some v => rw [hbv] at h1; simp at h1; omega
    rw [merge_none cs (findEarliestAux_all_none cs 0 hall)]
    exact List.Pairwise.nil
  | succ n ih =>
    intro cs hsize hinv hsort
    cases hfe : findEarliestCommand cs with
    | none =>
      rw [merge_none cs hfe]
      exact List.Pairwise.nil
    | some pair =>
      obtain ⟨i, cmd⟩ := pair
      obtain ⟨⟨sb, hget, hex, hbuf⟩, hmin⟩ :=
        findEarliestCommand_some_spec cs i cmd hfe
      have hsbmem : sb ∈ cs := List.getElem?_mem hget
      obtain ⟨hinv', hcont, herr⟩ := refillBuffer_spec sb cmd hbuf (hinv sb hsbmem)
      obtain ⟨l1, l2, hdec, hlen, hset⟩ := getElem?_decomp hget
      have hszlt : bufferSize (refillBuffer sb).1 < bufferSize sb :=
        refillBuffer_size_lt sb cmd hbuf
      have hsz : buffersSize (cs.set i (refillBuffer sb).1) ≤ n := by
        have h1 : buffersSize cs
            = buffersSize l1 + (bufferSize sb + buffersSize l2) := by
          rw [hdec]
          simp [buffersSize, List.map_append, List.sum_append]
        have h2 : buffersSize (cs.set i (refillBuffer sb).1)
            = buffersSize l1 + (bufferSize (refillBuffer sb).1 + buffersSize l2) := by
          rw [hset]
          simp [buffersSize, List.map_append, List.sum_append]
        omega
      have hinvAll : ∀ x ∈ cs.set i (refillBuffer sb).1, CursorInv x := by
        rw [hset]
        intro x hx
        rcases List.mem_append.mp hx with hx | hx
        · exact hinv x (by rw [hdec]; exact List.mem_append_left _ hx)
        · rcases List.mem_cons.mp hx with hx | hx
          · rw [hx]; exact hinv'
          · exact hinv x (by
              rw [hdec]
              exact List.mem_append_right _ (List.mem_cons_of_mem _ hx))
      have hsortAll : ∀ x ∈ cs.set i (refillBuffer sb).1,
          (cursorContents x).Pairwise cmdLE := by
        rw [hset]
        intro x hx
        rcases List.mem_append.mp hx with hx | hx
        · exact hsort x (by rw [hdec]; exact List.mem_append_left _ hx)
        · rcases List.mem_cons.mp hx with hx | hx
          · rw [hx]
            have hp := hsort sb hsbmem
            rw [hcont] at hp
            exact hp.of_cons
          · exact hsort x (by
              rw [hdec]
              exact List.mem_append_right _ (List.mem_cons_of_mem _ hx))
      rw [merge_step cs i cmd sb hfe hget hbuf]
      refine List.Pairwise.cons ?_
        (ih (cs.set i (refillBuffer sb).1) hsz hinvAll hsortAll)
      intro y hy
      have hperm := (merge_perm_diag n (cs.set i (refillBuffer sb).1) hsz hinvAll).1
      have hy' : y ∈ (cs.set i (refillBuffer sb).1).flatMap cursorContents :=
        hperm.subset hy
      obtain ⟨x, hxmem, hyx⟩ := List.mem_flatMap.mp hy'
      rw [hset] at hxmem
      have horig : ∀ x' ∈ cs, ∀ y' ∈ cursorContents x', cmdLE cmd y' := by
        intro x' hx' y' hyy
        cases hbx : x'.buffer with
        | none =>
          have hstream := (hinv x' hx').2.1 hbx
          rw [cursorContents, hbx, hstream] at hyy
          simp [okValues] at hyy
        | some bx =>
          have hexx : x'.exhausted = false := by
            cases hxe : x'.exhausted
            · rfl
            · rw [(hinv x' hx').1 hxe] at hbx; cases hbx
          obtain ⟨k, hk⟩ := List.getElem?_of_mem hx'
          have hle : cmd.timestamp ≤ bx.timestamp := hmin k x' bx hk hexx hbx
          rw [cursorContents, hbx] at hyy
          rcases List.mem_cons.mp (by simpa using hyy) with he | he
          · rw [he]
            exact hle
          · have hp := hsort x' hx'
            rw [cursorContents, hbx] at hp
            have hrel : cmdLE bx y' :=
              List.rel_of_pairwise_cons (by simpa using hp) he
            exact Nat.le_trans hle hrel
      rcases List.mem_append.mp hxmem with hx | hx
      · exact horig x (by rw [hdec]; exact List.mem_append_left _ hx) y hyx
      · rcases List.mem_cons.mp hx with hx | hx
        · rw [hx] at hyx
          have hp := hsort sb hsbmem
          rw [hcont] at hp
          exact List.rel_of_pairwise_cons hp hyx
        · exact horig x (by
            rw [hdec]
            exact List.mem_append_right _ (List.mem_cons_of_mem _ hx)) y hyx

theorem initializeBuffer_spec (s : SourceStream) (h : errorLastOnly s = true) :
    CursorInv (initializeBuffer s).1 ∧
    cursorContents (initializeBuffer s).1 = okValues s ∧
    (initializeBuffer s).2 + errorCount (initializeBuffer s).1.stream
      = errorCount s := by
  cases s with
  | nil =>
    refine ⟨⟨fun _ => rfl, fun _ => rfl, rfl⟩, ?_, ?_⟩
    · simp [initializeBuffer, cursorContents, okValues]
    · simp [initializeBuffer, errorCount]
  | cons p rest =>
    cases p with
    | ok v =>
      have hrest : errorLastOnly rest = true := h
      refine ⟨⟨?_, ?_, ?_⟩, ?_, ?_⟩
      · intro hxx
        exact absurd hxx (by simp [initializeBuffer])
      · intro hxx
        exact absurd hxx (by simp [initializeBuffer])
      · exact hrest
      · simp [initializeBuffer, cursorContents, okValues, Except.toOption]
      · simp [initializeBuffer, errorCount, Except.isOk, Except.toBool]
    | error u =>
      have hrest : rest = [] := by
        cases rest with
        | nil => rfl
        | cons q t => simp [errorLastOnly] at h
      subst hrest
      refine ⟨⟨fun _ => rfl, fun _ => rfl, rfl⟩, ?_, ?_⟩
      · simp [initializeBuffer, cursorContents, okValues, Except.toOption]
      · simp [initializeBuffer, errorCount, Except.isOk, Except.toBool]

theorem errorLastOnly_map_ok (bs : List Command) :
    errorLastOnly (bs.map Except.ok) = true := by
  induction bs with
  | nil => rfl
  | cons b t ih => simpa [errorLastOnly] using ih

theorem okValues_map_ok (bs : List Command) :
    okValues (bs.map Except.ok) = bs := by
  induction bs with
  | nil => rfl
  | cons b t ih =>
    show b :: okValues (t.map Except.ok) = b :: t
    rw [ih]

theorem errorCount_map_ok (bs : List Command) :
    errorCount (bs.map Except.ok) = 0 := by
  induction bs with
  | nil => rfl
  | cons b t ih => simp [errorCount, Except.isOk, Except.toBool, ih]

theorem streamOkValues_map_ok (bs : List Command) :
    streamOkValues (bs.map Except.ok) = bs := by
  induction bs with
  | nil => rfl
  | cons b t ih =>
    simp [streamOkValues, Except.isOk, Except.toBool, Except.toOption] at ih ⊢
    try exact ih

/-- Initialization followed by the buffered merge: the output is a
permutation of the ok-values of all sources, diagnostics count the error
pulls, and sorted sources merge to a sorted output. -/
theorem merged_spec (streams : List SourceStream)
    (hgood : ∀ s ∈ streams, errorLastOnly s = true) :
    (mergeStreamsWithBuffering (initializeBuffers streams).1).1.Perm
      (streams.flatMap okValues) ∧
    ((initializeBuffers streams).2 +
      (mergeStreamsWithBuffering (initializeBuffers streams).1).2)
      = (streams.map errorCount).sum ∧
    ((∀ s ∈ streams, (okValues s).Pairwise cmdLE) →
      (mergeStreamsWithBuffering (initializeBuffers streams).1).1.Pairwise cmdLE) := by
  have hcseq : (initializeBuffers streams).1
      = streams.map (fun s => (initializeBuffer s).1) := by
    simp only [initializeBuffers, List.map_map]
    rfl
  have hinv : ∀ sb ∈ (initializeBuffers streams).1, CursorInv sb := by
    rw [hcseq]
    intro sb hsb
    obtain ⟨s, hs, he⟩ := List.mem_map.mp hsb
    rw [← he]
    exact (initializeBuffer_spec s (hgood s hs)).1
  obtain ⟨hperm, hdiag⟩ := merge_perm_diag
    (buffersSize (initializeBuffers streams).1) (initializeBuffers streams).1
    (Nat.le_refl _) hinv
  have hcontents : ((initializeBuffers streams).1).flatMap cursorContents
      = streams.flatMap okValues := by
    rw [hcseq, flatMap_map_fn]
    exact flatMap_congr_mem streams _ okValues
      (fun s hs => (initializeBuffer_spec s (hgood s hs)).2.1)
  refine ⟨?_, ?_, ?_⟩
  · rw [hcontents] at hperm
    exact hperm
  · have h2 : (initializeBuffers streams).2
        = (streams.map (fun s => (initializeBuffer s).2)).sum := by
      simp [initializeBuffers, List.map_map]
      rfl
    have h3 : (((initializeBuffers streams).1).map
          (fun sb => errorCount sb.stream)).sum
        = (streams.map (fun s => errorCount (initializeBuffer s).1.stream)).sum := by
      rw [hcseq]
      simp only [List.map_map]
      rfl
    rw [hdiag, h2, h3, sum_map_add]
    congr 1
    apply List.map_congr_left
    intro s hs
    exact (initializeBuffer_spec s (hgood s hs)).2.2
  · intro hsortStreams
    apply merge_sorted (buffersSize (initializeBuffers streams).1)
      (initializeBuffers streams).1 (Nat.le_refl _) hinv
    rw [hcseq]
    intro sb hsb
    obtain ⟨s, hs, he⟩ := List.mem_map.mp hsb
    rw [← he, (initializeBuffer_spec s (hgood s hs)).2.1]
    exact hsortStreams s hs

/-- C3: the chronological merge of finitely many command sequences, each
individually non-decreasing in timestamp, yields one sequence that is
non-decreasing in timestamp and is a permutation of the multiset union of
the inputs (every element exactly once), with no diagnostics. -/
theorem chronologicalMerge_spec :
    ∀ (css : List (List Command)),
    (∀ cs ∈ css, cs.Pairwise cmdLE) →
    (chronologicalMerge (css.map (fun cs => cs.map Except.ok))).1.Perm
      css.flatten ∧
    (chronologicalMerge (css.map (fun cs => cs.map Except.ok))).1.Pairwise
      cmdLE ∧
    (chronologicalMerge (css.map (fun cs => cs.map Except.ok))).2 = 0 := by
  intro css hsorted
  match css with
  | [] => exact ⟨List.Perm.refl _, List.Pairwise.nil, rfl⟩
  | [cs] =>
    have h1 : chronologicalMerge ([cs].map (fun cs => cs.map Except.ok))
        = (streamOkValues (cs.map Except.ok), 0) := rfl
    rw [h1, streamOkValues_map_ok]
    refine ⟨?_, hsorted cs (by simp), rfl⟩
    simp [List.flatten]
  | cs1 :: cs2 :: rest =>
    have hgood : ∀ s ∈ (cs1 :: cs2 :: rest).map (fun cs => cs.map Except.ok),
        errorLastOnly s = true := by
      intro s hs
      obtain ⟨cs, _, he⟩ := List.mem_map.mp hs
      rw [← he]
      exact errorLastOnly_map_ok cs
    obtain ⟨hperm, hdiag, hsort⟩ :=
      merged_spec ((cs1 :: cs2 :: rest).map (fun cs => cs.map Except.ok)) hgood
    have hch : chronologicalMerge ((cs1 :: cs2 :: rest).map
          (fun cs => cs.map Except.ok))
        = ((mergeStreamsWithBuffering
              (initializeBuffers ((cs1 :: cs2 :: rest).map
                (fun cs => cs.map Except.ok))).1).1,
           (initializeBuffers ((cs1 :: cs2 :: rest).map
              (fun cs => cs.map Except.ok))).2 +
             (mergeStreamsWithBuffering
               (initializeBuffers ((cs1 :: cs2 :: rest).map
                 (fun cs => cs.map Except.ok))).1).2) := rfl
    rw [hch]
    refine ⟨?_, ?_, ?_⟩
    · refine hperm.trans ?_
      have hfl : ((cs1 :: cs2 :: rest).map
            (fun cs => cs.map Except.ok)).flatMap okValues
          = (cs1 :: cs2 :: rest).flatten := by
        rw [flatMap_map_fn]
        have : (cs1 :: cs2 :: rest).flatMap (fun cs => okValues (cs.map Except.ok))
            = (cs1 :: cs2 :: rest).flatMap (fun cs => cs) :=
          flatMap_congr_mem _ _ _ (fun cs _ => okValues_map_ok cs)
        rw [this]
        exact flatMap_ident _
      rw [hfl]
    · apply hsort
      intro s hs
      obtain ⟨cs, hcs, he⟩ := List.mem_map.mp hs
      rw [← he, okValues_map_ok]
      exact hsorted cs hcs
    · rw [hdiag]
      apply List.sum_eq_zero
      intro x hx
      obtain ⟨s, hs, he⟩ := List.mem_map.mp hx
      obtain ⟨cs, _, he2⟩ := List.mem_map.mp hs
      rw [← he, ← he2]
      exact errorCount_map_ok cs

/-- Witness for C3: merging the sorted sequences `[t=1, t=3]` and `[t=2]`
yields a permutation of all three commands in sorted order. -/
theorem chronologicalMerge_spec_witness :
    (∀ cs ∈ [[cmdAt 1, cmdAt 3], [cmdAt 2]], cs.Pairwise cmdLE) ∧
    (chronologicalMerge ([[cmdAt 1, cmdAt 3], [cmdAt 2]].map
        (fun cs => cs.map Except.ok))).1.Perm
      ([[cmdAt 1, cmdAt 3], [cmdAt 2]].flatten) ∧
    (chronologicalMerge ([[cmdAt 1, cmdAt 3], [cmdAt 2]].map
        (fun cs => cs.map Except.ok))).1.Pairwise cmdLE :=
  ⟨by decide,
    (chronologicalMerge_spec [[cmdAt 1, cmdAt 3], [cmdAt 2]] (by decide)).1,
    (chronologicalMerge_spec [[cmdAt 1, cmdAt 3], [cmdAt 2]] (by decide)).2.1⟩

/-- C5: merging two sources where the first throws after yielding one
element still yields every element of the other source plus the one
element already yielded, and reports exactly one diagnostic; the failing
cursor is treated as exhausted and the merge does not abort. -/
theorem merge_resilient :
    ∀ (a : Command) (bs : List Command),
    (chronologicalMerge [[Except.ok a, Except.error ()],
        bs.map Except.ok]).1.Perm (a :: bs) ∧
    (chronologicalMerge [[Except.ok a, Except.error ()],
        bs.map Except.ok]).2 = 1 := by
  intro a bs
  have hgood : ∀ s ∈ ([[Except.ok a, Except.error ()], bs.map Except.ok] :
      List SourceStream), errorLastOnly s = true := by
    intro s hs
    rcases List.mem_cons.mp hs with h | h
    · rw [h]; rfl
    · rcases List.mem_cons.mp h with h | h
      · rw [h]; exact errorLastOnly_map_ok bs
      · simp at h
  obtain ⟨hperm, hdiag, _⟩ :=
    merged_spec [[Except.ok a, Except.error ()], bs.map Except.ok] hgood
  have hch : chronologicalMerge [[Except.ok a, Except.error ()],
        bs.map Except.ok]
      = ((mergeStreamsWithBuffering
            (initializeBuffers [[Except.ok a, Except.error ()],
              bs.map Except.ok]).1).1,
         (initializeBuffers [[Except.ok a, Except.error ()],
            bs.map Except.ok]).2 +
           (mergeStreamsWithBuffering
             (initializeBuffers [[Except.ok a, Except.error ()],
               bs.map Except.ok]).1).2) := rfl
  rw [hch]
  constructor
  · refine hperm.trans ?_
    have hfl : ([[Except.ok a, Except.error ()], bs.map Except.ok] :
          List SourceStream).flatMap okValues = a :: bs := by
      simp [okValues, Except.toOption, okValues_map_ok]
      have := okValues_map_ok bs
      simp [okValues] at this
      exact this
    rw [hfl]
  · rw [hdiag]
    have h1 : errorCount [Except.ok a, Except.error ()] = 1 := by
      simp [errorCount, Except.isOk, Except.toBool]
    simp [h1, errorCount_map_ok]

end ClaudeHistory
